import Mathlib

/-!
Shallow embedding of the Dedupe tool (src/src/dedupe.go).

The program scans directory trees (filepath.Walk), buckets regular files by
size, hashes every member of a bucket with at least two files (SHA-256),
groups paths by digest, sorts every digest group with sort.Slice under a
two-key comparator (filepath.VolumeName of the path, then os.Stat modification
time), keeps the first element of the sorted group and deletes the rest
subject to the --dry-run / --confirm flags, accumulating statistics.

External collaborators are modelled as inputs: the walk is a list of events
(error or file record), the hash primitive is a function from path to
optional digest, os.Stat after the scan is a metadata function, the
interactive confirmation reader is a function from prompt index to the
response string, and os.Remove success is a predicate on paths.  Go map
iteration order is not deterministic, so the two `range` loops over maps
take the iteration order (a list of keys) as an explicit parameter.

Machine integers: file sizes and counters are Nat (they stay far below 2^63
in any run the claims quantify over), modification times are Int.  Go
compares strings byte-wise; for UTF-8 data this agrees with Lean's
codepoint-wise String order, which we use.
-/

/-- Metadata of one file as the program sees it (os.FileInfo):
byte size, modification time, directory flag, symlink flag. -/
structure FileMeta where
  size : Nat
  modTime : Int
  isDir : Bool
  isSymlink : Bool
  deriving DecidableEq, Repr

/-- One event delivered by filepath.Walk to the callback: either an access
error on a path (err != nil, the callback logs and returns nil) or a path
with its metadata. -/
inductive WalkEntry where
  | err (path : String)
  | entry (path : String) (info : FileMeta)
  deriving DecidableEq, Repr

/-! ### filepath.VolumeName

Go's path/filepath.VolumeName is a pure function of the path string.  On
non-Windows builds it always returns "".  Below is the Windows semantics
(internal/filepathlite volumeNameLen, Go 1.20+), transcribed over the
path's character list: drive-letter paths, DOS device paths and UNC paths
have a nonempty volume prefix, everything else maps to "". -/

/-- Windows isSlash: a path separator byte. -/
def isSlashC (c : Char) : Bool := c = '\\' || c = '/'

/-- ASCII upper-casing used by pathHasPrefixFold. -/
def toUpperC (c : Char) : Char :=
  if 'a' ≤ c ∧ c ≤ 'z' then Char.ofNat (c.toNat - 32) else c

/-- cutPath: slice a path around the first separator; returns the part
after the separator and whether a separator was found. -/
def cutPathAfter : List Char → Option (List Char)
  | [] => none
  | c :: rest => if isSlashC c then some rest else cutPathAfter rest

/-- pathHasPrefixFold: prefix match treating both slashes as equal and
ASCII letters case-insensitively, requiring the prefix to end at a
separator or at the end of the string. -/
def hasPfxFold (s pfx : List Char) : Bool :=
  match s, pfx with
  | _, [] =>
    match s with
    | [] => true
    | c :: _ => isSlashC c
  | [], _ :: _ => false
  | c :: s', p :: pfx' =>
    if isSlashC p then isSlashC c && hasPfxFold s' pfx'
    else (toUpperC c = toUpperC p : Bool) && hasPfxFold s' pfx'

/-- uncLen: length of the volume prefix of a UNC path, counting up to the
second separator at or after position `pfxLen`.  Transcribed index loop:
we scan the suffix, tracking the absolute index. -/
def uncLenAux (l : List Char) (i : Nat) (count : Nat) : Nat :=
  match l with
  | [] => i
  | c :: rest =>
    if isSlashC c then
      if count + 1 = 2 then i
      else uncLenAux rest (i + 1) (count + 1)
    else uncLenAux rest (i + 1) count

/-- uncLen(path, prefixLen): see uncLenAux; the scan starts at prefixLen
and returns len(path) when fewer than two separators follow. -/
def uncLen (path : List Char) (pfxLen : Nat) : Nat :=
  uncLenAux (path.drop pfxLen) pfxLen 0

/-- volumeNameLen (Windows, Go 1.20+): length in characters of the leading
volume name of the path. -/
def volumeNameLen (p : List Char) : Nat :=
  if 2 ≤ p.length ∧ p.getD 1 ' ' = ':' ∧
      (('a' ≤ p.getD 0 ' ' ∧ p.getD 0 ' ' ≤ 'z') ∨ ('A' ≤ p.getD 0 ' ' ∧ p.getD 0 ' ' ≤ 'Z')) then
    2
  else if p.length = 0 ∨ ¬ isSlashC (p.getD 0 ' ') then
    0
  else if hasPfxFold p ['\\', '\\', '.', '\\', 'U', 'N', 'C'] then
    uncLen p 8
  else if hasPfxFold p ['\\', '\\', '.'] || hasPfxFold p ['\\', '\\', '?'] ||
      hasPfxFold p ['\\', '?', '?'] then
    if p.length = 3 then 3
    else
      match cutPathAfter (p.drop 4) with
      | none => p.length
      | some rest => p.length - rest.length - 1
  else if 2 ≤ p.length ∧ isSlashC (p.getD 1 ' ') then
    uncLen p 2
  else 0

/-- filepath.VolumeName: the leading volume-name slice of the path.
A pure function of the path string; it performs no file-system access. -/
def goVolumeName (path : String) : String :=
  ⟨path.data.take (volumeNameLen path.data)⟩

/-! ### The sort.Slice comparator

dedupe.go lines 110-122.  The closure stats both paths (discarding the
error), computes both volume names, compares volume names first and
modification times second.  `lessTotal` is the comparator on runs where
os.Stat succeeds for every compared path (the metadata function `stat` is
total); `lessPanicking` is the comparator with a fallible stat: when the
stat of either side fails and the volume names are equal, the Go code calls
ModTime() on a nil os.FileInfo interface and panics (modelled as .error). -/

/-- The comparator assuming os.Stat succeeds (infoI, infoJ non-nil). -/
def lessTotal (stat : String → FileMeta) (x y : String) : Bool :=
  let partitionI := goVolumeName x
  let partitionJ := goVolumeName y
  if partitionI ≠ partitionJ then decide (partitionI < partitionJ)
  else decide ((stat x).modTime < (stat y).modTime)

/-- The comparator with fallible os.Stat, exactly as written: the error is
discarded, and the nil FileInfo is dereferenced by ModTime() whenever the
volume names compare equal — a runtime panic, modelled by Except.error. -/
def lessPanicking (stat : String → Option FileMeta) (x y : String) :
    Except Unit Bool :=
  let infoI := stat x
  let infoJ := stat y
  let partitionI := goVolumeName x
  let partitionJ := goVolumeName y
  if partitionI ≠ partitionJ then .ok (decide (partitionI < partitionJ))
  else
    match infoI, infoJ with
    | some a, some b => .ok (decide (a.modTime < b.modTime))
    | _, _ => .error ()

/-- The statistics accumulation at dedupe.go lines 132-133 with fallible
os.Stat: `info, _ := os.Stat(dup); totalSaved += info.Size()`.  A stat
failure leaves info nil and Size() panics (modelled by Except.error). -/
def sizePanicking (stat : String → Option FileMeta) (p : String) :
    Except Unit Nat :=
  match stat p with
  | some a => .ok a.size
  | none => .error ()

/-! ### sort.Slice

dedupe.go line 110 calls sort.Slice, which since Go 1.19 is pdqsort
(sort/zsortfunc.go) with recursion limit bits.Len(uint(n)).  The slice is
modelled as a List with out-of-range-safe indexed read and swap; every
index used by the algorithm on its reachable inputs is in range, so the
fallbacks are never exercised there.  All loops are transcribed either by
structural/well-founded recursion on their counters or on explicit fuel
that dominates the loop's iteration count. -/

/-- Indexed read of the slice (data[i] through the less/swap closures). -/
def geti [Inhabited α] (l : List α) (i : Nat) : α := l.getD i default

/-- data.Swap(i, j).  Go's reflect.Swapper panics out of range; the
algorithm never swaps out of range on its reachable inputs, and the guard
makes that precondition explicit instead of corrupting the slice. -/
def swpL [Inhabited α] (l : List α) (i j : Nat) : List α :=
  if i < l.length ∧ j < l.length then (l.set i (geti l j)).set j (geti l i)
  else l

/-- bits.Len for Nat: number of bits in the binary representation,
computed by structural recursion on a dominating counter. -/
def bitsLenAux : Nat → Nat → Nat
  | 0, _ => 0
  | fuel + 1, n => if n = 0 then 0 else bitsLenAux fuel (n / 2) + 1

/-- bits.Len(n). -/
def bitsLen (n : Nat) : Nat := bitsLenAux (n + 1) n

/-- 2^64, the modulus of Go's uint64 arithmetic in the xorshift PRNG. -/
def u64Mod : Nat := 2 ^ 64

/-- xorshift.Next(): r ^= r<<13; r ^= r>>7; r ^= r<<17 over uint64. -/
def xsNext (r : Nat) : Nat :=
  let a := r ^^^ ((r <<< 13) % u64Mod)
  let b := a ^^^ (a >>> 7)
  b ^^^ ((b <<< 17) % u64Mod)

/-- insertionSort inner loop: for j := i; j > a && Less(j, j-1); j-- swap. -/
def insInner [Inhabited α] (less : α → α → Bool) (a : Nat) :
    List α → Nat → List α
  | arr, 0 => arr
  | arr, j + 1 =>
    if a < j + 1 && less (geti arr (j + 1)) (geti arr j) then
      insInner less a (swpL arr (j + 1) j) j
    else arr

/-- insertionSort outer loop: for i := a+1; i < b; i++, driven by the
remaining iteration count b - i. -/
def insOuter [Inhabited α] (less : α → α → Bool) (a : Nat)
    (arr : List α) (i : Nat) : Nat → List α
  | 0 => arr
  | c + 1 => insOuter less a (insInner less a arr i) (i + 1) c

/-- insertionSort(data, a, b). -/
def insertionSortRange [Inhabited α] (less : α → α → Bool)
    (arr : List α) (a b : Nat) : List α :=
  insOuter less a arr (a + 1) (b - (a + 1))

/-- siftDown child selection: the larger of the two children of root. -/
def sdChild [Inhabited α] (less : α → α → Bool) (arr : List α)
    (hi first child0 : Nat) : Nat :=
  if child0 + 1 < hi &&
      less (geti arr (first + child0)) (geti arr (first + child0 + 1)) then
    child0 + 1
  else child0

theorem sdChild_ge [Inhabited α] (less : α → α → Bool) (arr : List α)
    (hi first child0 : Nat) : child0 ≤ sdChild less arr hi first child0 := by
  unfold sdChild
  split <;> omega

theorem sdChild_lt [Inhabited α] (less : α → α → Bool) (arr : List α)
    (hi first child0 : Nat) (h : child0 < hi) :
    sdChild less arr hi first child0 < hi := by
  unfold sdChild
  split
  · next hc =>
    have := (Bool.and_eq_true _ _).mp hc
    have h1 : child0 + 1 < hi := by
      have := this.1
      simpa using of_decide_eq_true this
    omega
  · exact h

/-- siftDown loop body; the root strictly increases and stays below hi,
so fuel hi + 1 dominates the iteration count. -/
def siftDownLoop [Inhabited α] (less : α → α → Bool) (hi first : Nat) :
    Nat → List α → Nat → List α
  | 0, arr, _ => arr
  | fuel + 1, arr, root =>
    if 2 * root + 1 ≥ hi then arr
    else if ! less (geti arr (first + root))
        (geti arr (first + sdChild less arr hi first (2 * root + 1))) then arr
    else
      siftDownLoop less hi first fuel
        (swpL arr (first + root) (first + sdChild less arr hi first (2 * root + 1)))
        (sdChild less arr hi first (2 * root + 1))

/-- siftDown(data, lo, hi, first). -/
def siftDownGo [Inhabited α] (less : α → α → Bool)
    (lo hi first : Nat) (arr : List α) : List α :=
  siftDownLoop less hi first (hi + 1) arr lo

/-- heapSort build loop: for i := (hi-1)/2; i >= 0; i--, run with
count = (hi-1)/2 + 1 iterations (Go's int (hi-1)/2 is 0 when hi = 0). -/
def heapBuild [Inhabited α] (less : α → α → Bool) (hi first : Nat) :
    List α → Nat → List α
  | arr, 0 => arr
  | arr, i + 1 => heapBuild less hi first (siftDownGo less i hi first arr) i

/-- heapSort pop loop: for i := hi-1; i >= 0; i--, run with hi iterations. -/
def heapPop [Inhabited α] (less : α → α → Bool) (first : Nat) :
    List α → Nat → List α
  | arr, 0 => arr
  | arr, i + 1 =>
    heapPop less first (siftDownGo less 0 i first (swpL arr first (first + i))) i

/-- heapSort(data, a, b). -/
def heapSortRange [Inhabited α] (less : α → α → Bool)
    (arr : List α) (a b : Nat) : List α :=
  let first := a
  let hi := b - a
  heapPop less first (heapBuild less hi first arr ((hi - 1) / 2 + 1)) hi

/-- reverseRange loop: i := a, j := b-1; while i < j swap, i++, j--. -/
def revLoop [Inhabited α] : Nat → List α → Nat → Nat → List α
  | 0, arr, _, _ => arr
  | fuel + 1, arr, i, j =>
    if i < j then revLoop fuel (swpL arr i j) (i + 1) (j - 1) else arr

/-- reverseRange(data, a, b). -/
def reverseRangeGo [Inhabited α] (arr : List α) (a b : Nat) : List α :=
  revLoop (b + 1) arr a (b - 1)

/-- One breakPatterns target index: random.Next() masked by the modulus,
folded below the length. -/
def bpOther (length rnd : Nat) : Nat :=
  let modulus := 1 <<< bitsLen length
  let other := rnd &&& (modulus - 1)
  if other ≥ length then other - length else other

/-- breakPatterns(data, a, b): three pseudo-random swaps near the middle,
driven by the xorshift PRNG seeded with the length (states r1, r2, r3). -/
def breakPatterns [Inhabited α] (arr : List α) (a b : Nat) : List α :=
  if b - a ≥ 8 then
    let length := b - a
    let idx := a + (length / 4) * 2 - 1
    let r1 := xsNext length
    let r2 := xsNext r1
    let r3 := xsNext r2
    swpL (swpL (swpL arr (idx - 1 + 0) (a + bpOther length r1))
        (idx - 1 + 1) (a + bpOther length r2))
      (idx - 1 + 2) (a + bpOther length r3)
  else arr

/-- Sortedness hints returned by choosePivot. -/
inductive SHint where
  | incr
  | decr
  | unknown
  deriving DecidableEq, Repr

/-- order2(a, b): indices in less-order, counting performed swaps. -/
def order2 [Inhabited α] (less : α → α → Bool) (arr : List α)
    (a b swaps : Nat) : (Nat × Nat) × Nat :=
  if less (geti arr b) (geti arr a) then ((b, a), swaps + 1) else ((a, b), swaps)

/-- median(a, b, c): index of the median of three, counting swaps. -/
def median3 [Inhabited α] (less : α → α → Bool) (arr : List α)
    (i j k swaps : Nat) : Nat × Nat :=
  let p1 := order2 less arr i j swaps
  let p2 := order2 less arr p1.1.2 k p1.2
  let p3 := order2 less arr p1.1.1 p2.1.1 p2.2
  (p3.1.2, p3.2)

/-- medianAdjacent(a): median of a-1, a, a+1. -/
def medianAdj [Inhabited α] (less : α → α → Bool) (arr : List α)
    (i swaps : Nat) : Nat × Nat :=
  median3 less arr (i - 1) i (i + 1) swaps

/-- choosePivot(data, a, b): pivot index and sortedness hint.  maxSwaps is
12; with fewer than 50 elements only the plain median of three runs. -/
def choosePivot [Inhabited α] (less : α → α → Bool) (arr : List α)
    (a b : Nat) : Nat × SHint :=
  let l := b - a
  let i := a + l / 4 * 1
  let j := a + l / 4 * 2
  let k := a + l / 4 * 3
  let js :=
    if l ≥ 8 then
      if l ≥ 50 then
        let m1 := medianAdj less arr i 0
        let m2 := medianAdj less arr j m1.2
        let m3 := medianAdj less arr k m2.2
        median3 less arr m1.1 m2.1 m3.1 m3.2
      else median3 less arr i j k 0
    else (j, 0)
  if js.2 = 0 then (js.1, SHint.incr)
  else if js.2 = 12 then (js.1, SHint.decr)
  else (js.1, SHint.unknown)

/-- partialInsertionSort adjacent scan: for i < b && !Less(i, i-1): i++. -/
def pisAdvance [Inhabited α] (less : α → α → Bool) (arr : List α)
    (b : Nat) : Nat → Nat → Nat
  | _, 0 => 0
  | i, fuel + 1 =>
    if i < b then
      if ! less (geti arr i) (geti arr (i - 1)) then
        pisAdvance less arr b (i + 1) fuel
      else i
    else i

/-- partialInsertionSort left shift: for j := i-1; j >= 1; j--:
break unless Less(j, j-1), else swap. -/
def shiftLeft [Inhabited α] (less : α → α → Bool) :
    List α → Nat → List α
  | arr, 0 => arr
  | arr, j + 1 =>
    if ! less (geti arr (j + 1)) (geti arr j) then arr
    else shiftLeft less (swpL arr (j + 1) j) j

/-- partialInsertionSort right shift: for j := i+1; j < b; j++:
break unless Less(j, j-1), else swap. -/
def shiftRight [Inhabited α] (less : α → α → Bool) (b : Nat) :
    Nat → List α → Nat → List α
  | 0, arr, _ => arr
  | fuel + 1, arr, j =>
    if j < b then
      if ! less (geti arr j) (geti arr (j - 1)) then arr
      else shiftRight less b fuel (swpL arr j (j - 1)) (j + 1)
    else arr

/-- partialInsertionSort outer loop over at most maxSteps = 5 steps;
shortestShifting = 50. -/
def pisSteps [Inhabited α] (less : α → α → Bool) (a b : Nat) :
    List α → Nat → Nat → List α × Bool
  | arr, _, 0 => (arr, false)
  | arr, i, st + 1 =>
    let i := pisAdvance less arr b i (b + 1)
    if i = b then (arr, true)
    else if b - a < 50 then (arr, false)
    else
      let arr := swpL arr i (i - 1)
      let arr := if i - a ≥ 2 then shiftLeft less arr (i - 1) else arr
      let arr := if b - i ≥ 2 then shiftRight less b (b + 1) arr (i + 1) else arr
      pisSteps less a b arr i st

/-- partialInsertionSort(data, a, b): true means the range ended sorted. -/
def partialInsSort [Inhabited α] (less : α → α → Bool)
    (arr : List α) (a b : Nat) : List α × Bool :=
  pisSteps less a b arr (a + 1) 5

/-- partition i-advance: for i <= j && Less(i, a): i++. -/
def partAdvI [Inhabited α] (less : α → α → Bool) (arr : List α)
    (a j : Nat) : Nat → Nat → Nat
  | _, 0 => 0
  | i, fuel + 1 =>
    if i ≤ j && less (geti arr i) (geti arr a) then
      partAdvI less arr a j (i + 1) fuel
    else i

/-- partition j-advance: for i <= j && !Less(j, a): j--.  The loop is only
entered with i ≥ a+1 ≥ 1, so j never underflows below i-1 ≥ 0. -/
def partAdvJ [Inhabited α] (less : α → α → Bool) (arr : List α)
    (a i : Nat) : Nat → Nat
  | 0 => 0
  | j + 1 =>
    if i ≤ j + 1 && ! less (geti arr (j + 1)) (geti arr a) then
      partAdvJ less arr a i j
    else j + 1

/-- partition main loop; fuel dominates the iteration count (j decreases
every iteration).  Returns the slice and the final j. -/
def partLoop [Inhabited α] (less : α → α → Bool) (a : Nat) :
    Nat → List α → Nat → Nat → List α × Nat
  | 0, arr, _, j => (arr, j)
  | fuel + 1, arr, i, j =>
    let i := partAdvI less arr a j i (j + 2)
    let j := partAdvJ less arr a i j
    if i > j then (arr, j)
    else partLoop less a fuel (swpL arr i j) (i + 1) (j - 1)

/-- partition(data, a, b, pivot): (slice, newpivot, alreadyPartitioned). -/
def partitionGo [Inhabited α] (less : α → α → Bool) (arr : List α)
    (a b pivot : Nat) : List α × Nat × Bool :=
  let arr := swpL arr a pivot
  let i := partAdvI less arr a (b - 1) (a + 1) (b + 1)
  let j := partAdvJ less arr a i (b - 1)
  if i > j then (swpL arr j a, j, true)
  else
    let r := partLoop less a b (swpL arr i j) (i + 1) (j - 1)
    (swpL r.1 r.2 a, r.2, false)

/-- partitionEqual i-advance: for i <= j && !Less(a, i): i++. -/
def peAdvI [Inhabited α] (less : α → α → Bool) (arr : List α)
    (a j : Nat) : Nat → Nat → Nat
  | _, 0 => 0
  | i, fuel + 1 =>
    if i ≤ j && ! less (geti arr a) (geti arr i) then
      peAdvI less arr a j (i + 1) fuel
    else i

/-- partitionEqual j-advance: for i <= j && Less(a, j): j--. -/
def peAdvJ [Inhabited α] (less : α → α → Bool) (arr : List α)
    (a i : Nat) : Nat → Nat
  | 0 => 0
  | j + 1 =>
    if i ≤ j + 1 && less (geti arr a) (geti arr (j + 1)) then
      peAdvJ less arr a i j
    else j + 1

/-- partitionEqual main loop; returns the slice and the final i. -/
def peLoop [Inhabited α] (less : α → α → Bool) (a : Nat) :
    Nat → List α → Nat → Nat → List α × Nat
  | 0, arr, i, _ => (arr, i)
  | fuel + 1, arr, i, j =>
    let i := peAdvI less arr a j i (j + 2)
    let j := peAdvJ less arr a i j
    if i > j then (arr, i)
    else peLoop less a fuel (swpL arr i j) (i + 1) (j - 1)

/-- partitionEqual(data, a, b, pivot): (slice, newpivot). -/
def partitionEqualGo [Inhabited α] (less : α → α → Bool) (arr : List α)
    (a b pivot : Nat) : List α × Nat :=
  let arr := swpL arr a pivot
  peLoop less a b arr (a + 1) (b - 1)

/-! pdqsort(data, a, b, limit).  The Go function is an outer loop plus one
recursive call per iteration on the shorter side; both shrink the range, so
fuel greater than b - a is never exhausted.  The straight-line part of the
loop body — choosePivot, the reversal of decreasing ranges, the
partialInsertionSort early return, and the partitionEqual / partition
choice — is factored into pdqBody, which returns what the iteration does
next; pdqLoop performs the recursion, structurally on fuel.  Recursive
descents restart with wasBalanced = wasPartitioned = true exactly as Go's
fresh locals do. -/

/-- What one pdqsort iteration does after partitioning: return the sorted
slice (partialInsertionSort succeeded), continue the loop with a := mid
(partitionEqual), or partition and descend. -/
inductive PdqPlan (α : Type u) where
  | done (arr : List α)
  | equalCont (arr : List α) (mid : Nat)
  | descend (arr : List α) (mid : Nat) (alreadyPartitioned : Bool)

/-- The partitionEqual / partition choice at the end of the loop body. -/
def pdqBody3 [Inhabited α] (less : α → α → Bool) (arr : List α)
    (a b pivot : Nat) : PdqPlan α :=
  if a > 0 && ! less (geti arr (a - 1)) (geti arr pivot) then
    PdqPlan.equalCont (partitionEqualGo less arr a b pivot).1
      (partitionEqualGo less arr a b pivot).2
  else
    PdqPlan.descend (partitionGo less arr a b pivot).1
      (partitionGo less arr a b pivot).2.1 (partitionGo less arr a b pivot).2.2

/-- The likely-sorted check (partialInsertionSort early return). -/
def pdqBody2 [Inhabited α] (less : α → α → Bool) (arr : List α)
    (a b : Nat) (wb wp : Bool) (pivot : Nat) (hint : SHint) : PdqPlan α :=
  if wb && wp && hint = SHint.incr then
    if (partialInsSort less arr a b).2 then
      PdqPlan.done (partialInsSort less arr a b).1
    else pdqBody3 less (partialInsSort less arr a b).1 a b pivot
  else pdqBody3 less arr a b pivot

/-- choosePivot and the reversal of ranges with a decreasing hint. -/
def pdqBody [Inhabited α] (less : α → α → Bool) (arr : List α)
    (a b : Nat) (wb wp : Bool) : PdqPlan α :=
  if (choosePivot less arr a b).2 = SHint.decr then
    pdqBody2 less (reverseRangeGo arr a b) a b wb wp
      ((b - 1) - ((choosePivot less arr a b).1 - a)) SHint.incr
  else
    pdqBody2 less arr a b wb wp
      (choosePivot less arr a b).1 (choosePivot less arr a b).2

/-- pdqsort's loop / recursion, structurally on fuel. -/
def pdqLoop [Inhabited α] (less : α → α → Bool) :
    Nat → List α → Nat → Nat → Nat → Bool → Bool → List α
  | 0, arr, _, _, _, _, _ => arr
  | fuel + 1, arr, a, b, limit, wb, wp =>
    if b - a ≤ 12 then insertionSortRange less arr a b
    else if limit = 0 then heapSortRange less arr a b
    else
      match pdqBody less (if ! wb then breakPatterns arr a b else arr) a b wb wp with
      | PdqPlan.done out => out
      | PdqPlan.equalCont arr2 mid =>
        pdqLoop less fuel arr2 mid b (if ! wb then limit - 1 else limit) wb wp
      | PdqPlan.descend arr2 mid ap =>
        if mid - a < b - mid then
          pdqLoop less fuel
            (pdqLoop less fuel arr2 a mid (if ! wb then limit - 1 else limit)
              true true)
            (mid + 1) b (if ! wb then limit - 1 else limit)
            (decide (min (mid - a) (b - mid) ≥ (b - a) / 8)) ap
        else
          pdqLoop less fuel
            (pdqLoop less fuel arr2 (mid + 1) b
              (if ! wb then limit - 1 else limit) true true)
            a mid (if ! wb then limit - 1 else limit)
            (decide (min (mid - a) (b - mid) ≥ (b - a) / 8)) ap

/-- sort.Slice(x, less): pdqsort over the whole slice with recursion limit
bits.Len(uint(n)). -/
def goSortSlice [Inhabited α] (less : α → α → Bool) (l : List α) : List α :=
  pdqLoop less (l.length + 1) l 0 l.length (bitsLen l.length) true true

/-! ### The pipeline

main() of dedupe.go, from the walk to the summary.  Go maps are modelled as
association lists keyed by first occurrence; `map[k] = append(map[k], v)`
is `appendAL`.  The `range` iteration order over a map is an explicit list
of keys (hypotheses in the theorems constrain it to be a permutation of the
map's keys, which is everything Go guarantees). -/

/-- map[k] = append(map[k], v) on an association list of slices. -/
def appendAL [DecidableEq κ] (m : List (κ × List ν)) (k : κ) (v : ν) :
    List (κ × List ν) :=
  match m with
  | [] => [(k, [v])]
  | (k', vs) :: rest =>
    if k = k' then (k', vs ++ [v]) :: rest else (k', vs) :: appendAL rest k v

/-- Map lookup. -/
def lookupAL [DecidableEq κ] (m : List (κ × ν)) (k : κ) : Option ν :=
  match m with
  | [] => none
  | (k', v) :: rest => if k = k' then some v else lookupAL rest k

/-- The key set of a map, in first-insertion order. -/
def keysAL (m : List (κ × ν)) : List κ := m.map Prod.fst

/-- The walk callback (dedupe.go lines 37-53): errors are logged and
skipped, directories and symlinks are skipped, zero-byte files are skipped,
everything else is appended to sizeMap[size]. -/
def walkStep (sm : List (Nat × List String)) (e : WalkEntry) :
    List (Nat × List String) :=
  match e with
  | .err _ => sm
  | .entry path info =>
    if info.isDir then sm
    else if info.isSymlink then sm
    else if info.size = 0 then sm
    else appendAL sm info.size path

/-- sizeMap after walking every configured root, in walk order. -/
def buildSizeMap (walk : List WalkEntry) : List (Nat × List String) :=
  walk.foldl walkStep []

/-- The inputs of one run that the program does not control: the walk
stream, the hash primitive (None = open/read error), the post-scan os.Stat
results (total here; the separately modelled comparator panic covers the
failing case), the confirmation responses by prompt index, and os.Remove
success. -/
structure Env where
  walk : List WalkEntry
  hashFn : String → Option String
  stat : String → FileMeta
  resp : Nat → String
  removeOk : String → Bool

/-- The two deletion-relevant flags. -/
structure RunConfig where
  dryRun : Bool
  confirm : Bool

/-- State of the hashing loop (dedupe.go lines 77-98). -/
structure HashState where
  hashMap : List (String × List String)
  totalFiles : Nat
  hashed : List String
  deriving DecidableEq, Repr

/-- Hash one file: on error log and continue, otherwise append the path to
hashMap[hash] and count it. -/
def hashFile (hashFn : String → Option String) (st : HashState)
    (p : String) : HashState :=
  let st := { st with hashed := st.hashed ++ [p] }
  match hashFn p with
  | none => st
  | some d =>
    { st with hashMap := appendAL st.hashMap d p,
              totalFiles := st.totalFiles + 1 }

/-- Process one sizeMap bucket: buckets with fewer than two files are
skipped, otherwise every member is hashed in bucket order. -/
def hashBucket (hashFn : String → Option String)
    (sm : List (Nat × List String)) (st : HashState) (s : Nat) : HashState :=
  match lookupAL sm s with
  | none => st
  | some files =>
    if files.length < 2 then st else files.foldl (hashFile hashFn) st

/-- The hashing phase, iterating sizeMap in the given order. -/
def hashPhase (hashFn : String → Option String)
    (sm : List (Nat × List String)) (sizeOrder : List Nat) : HashState :=
  sizeOrder.foldl (hashBucket hashFn sm) ⟨[], 0, []⟩

/-- One printed duplicate group: digest, keeper line, duplicate lines. -/
structure GroupReport where
  digest : String
  keeper : String
  dups : List String
  deriving DecidableEq, Repr

/-- State of the deletion loop (dedupe.go lines 101-154). -/
structure DelState where
  reports : List GroupReport
  promptIdx : Nat
  prompts : List String
  deleted : List String
  removed : List String
  dupCount : Nat
  saved : Nat
  deriving DecidableEq, Repr

/-- Handle one duplicate (dedupe.go lines 130-152): count it and add its
size, then — unless dry-run — optionally prompt, and call os.Remove when
allowed.  `deleted` records every os.Remove invocation; `removed` records
the successful ones (the "Deleted" output lines).  A failed removal is
only logged. -/
def processDup (env : Env) (cfg : RunConfig) (st : DelState)
    (dup : String) : DelState :=
  let st := { st with dupCount := st.dupCount + 1,
                      saved := st.saved + (env.stat dup).size }
  if ! cfg.dryRun then
    let conf : DelState × Bool :=
      if cfg.confirm then
        let response := env.resp st.promptIdx
        let st := { st with promptIdx := st.promptIdx + 1,
                            prompts := st.prompts ++ [dup] }
        if response ≠ "y" ∧ response ≠ "Y" then (st, false) else (st, true)
      else (st, true)
    if conf.2 then
      let st := conf.1
      { st with deleted := st.deleted ++ [dup],
                removed := st.removed ++
                  (if env.removeOk dup then [dup] else []) }
    else conf.1
  else st

/-- Handle one digest group: skip groups with fewer than two members, sort
the rest with sort.Slice under the stat/volume comparator, keep files[0],
report and process files[1:]. -/
def processGroup (env : Env) (cfg : RunConfig) (st : DelState)
    (d : String) (files : List String) : DelState :=
  if files.length < 2 then st
  else
    match goSortSlice (lessTotal env.stat) files with
    | [] => st
    | keeper :: dups =>
      let st := { st with reports := st.reports ++ [⟨d, keeper, dups⟩] }
      dups.foldl (processDup env cfg) st

/-- The deletion phase, iterating hashMap in the given order. -/
def delPhase (env : Env) (cfg : RunConfig)
    (hm : List (String × List String)) (hashOrder : List String) : DelState :=
  hashOrder.foldl
    (fun st d =>
      match lookupAL hm d with
      | none => st
      | some files => processGroup env cfg st d files)
    ⟨[], 0, [], [], [], 0, 0⟩

/-- Everything observable about one run: the group reports in output
order, the os.Remove invocations, the successful removals, the prompts,
the paths handed to fileHash, and the three summary counters. -/
structure RunResult where
  groups : List GroupReport
  deleted : List String
  removed : List String
  prompts : List String
  hashed : List String
  totalFiles : Nat
  duplicateCount : Nat
  totalSaved : Nat
  deriving DecidableEq, Repr

/-- One full run of the tool over the given environment, flags and map
iteration orders. -/
def dedupeRun (env : Env) (cfg : RunConfig) (sizeOrder : List Nat)
    (hashOrder : List String) : RunResult :=
  let sm := buildSizeMap env.walk
  let hs := hashPhase env.hashFn sm sizeOrder
  let ds := delPhase env cfg hs.hashMap hashOrder
  ⟨ds.reports, ds.deleted, ds.removed, ds.prompts, hs.hashed,
   hs.totalFiles, ds.dupCount, ds.saved⟩

/-! ### Permutation facts: every sort operation permutes the slice -/

theorem perm_getD_cons_set [Inhabited α] (t : List α) :
    ∀ (k : Nat) (x : α), k < t.length →
      (geti t k :: t.set k x).Perm (x :: t) := by
  induction t with
  | nil => intro k x h; simp at h
  | cons y t ih =>
    intro k x h
    cases k with
    | zero =>
      simpa [geti] using List.Perm.swap x y t
    | succ k =>
      have hk : k < t.length := by simpa using h
      have e1 : geti (y :: t) (k + 1) = geti t k := by simp [geti]
      have e2 : (y :: t).set (k + 1) x = y :: t.set k x := by simp
      rw [e1, e2]
      exact (List.Perm.swap y (geti t k) (t.set k x)).trans
        ((List.Perm.cons y (ih k x hk)).trans (List.Perm.swap x y t))

theorem set_set_perm [Inhabited α] :
    ∀ (l : List α) (i j : Nat), i < l.length → j < l.length →
      ((l.set i (geti l j)).set j (geti l i)).Perm l := by
  intro l
  induction l with
  | nil => intro i j hi _; simp at hi
  | cons x t ih =>
    intro i j hi hj
    match i, j with
    | 0, 0 => simp [geti]
    | 0, k + 1 =>
      have hk : k < t.length := by simpa using hj
      simpa [geti] using perm_getD_cons_set t k x hk
    | m + 1, 0 =>
      have hm : m < t.length := by simpa using hi
      simpa [geti] using perm_getD_cons_set t m x hm
    | m + 1, k + 1 =>
      have hm : m < t.length := by simpa using hi
      have hk : k < t.length := by simpa using hj
      simpa [geti] using List.Perm.cons x (ih m k hm hk)

theorem swpL_perm [Inhabited α] (l : List α) (i j : Nat) :
    (swpL l i j).Perm l := by
  unfold swpL
  split
  · next h => exact set_set_perm l i j h.1 h.2
  · exact List.Perm.refl l

theorem insInner_perm [Inhabited α] (less : α → α → Bool) (a : Nat) :
    ∀ (j : Nat) (arr : List α), (insInner less a arr j).Perm arr := by
  intro j
  induction j with
  | zero => intro arr; exact List.Perm.refl arr
  | succ j ih =>
    intro arr
    rw [insInner]
    split
    · exact (ih _).trans (swpL_perm arr (j + 1) j)
    · exact List.Perm.refl arr

theorem insOuter_perm [Inhabited α] (less : α → α → Bool) (a : Nat) :
    ∀ (c i : Nat) (arr : List α), (insOuter less a arr i c).Perm arr := by
  intro c
  induction c with
  | zero => intro i arr; exact List.Perm.refl arr
  | succ c ih =>
    intro i arr
    exact (ih (i + 1) _).trans (insInner_perm less a i arr)

theorem insertionSortRange_perm [Inhabited α] (less : α → α → Bool)
    (arr : List α) (a b : Nat) : (insertionSortRange less arr a b).Perm arr :=
  insOuter_perm less a (b - (a + 1)) (a + 1) arr

theorem siftDownLoop_perm [Inhabited α] (less : α → α → Bool)
    (hi first : Nat) : ∀ (fuel root : Nat) (arr : List α),
      (siftDownLoop less hi first fuel arr root).Perm arr := by
  intro fuel
  induction fuel with
  | zero => intro root arr; exact List.Perm.refl arr
  | succ fuel ih =>
    intro root arr
    rw [siftDownLoop]
    split
    · exact List.Perm.refl arr
    · split
      · exact List.Perm.refl arr
      · exact (ih _ _).trans (swpL_perm arr _ _)

theorem heapBuild_perm [Inhabited α] (less : α → α → Bool) (hi first : Nat) :
    ∀ (c : Nat) (arr : List α), (heapBuild less hi first arr c).Perm arr := by
  intro c
  induction c with
  | zero => intro arr; exact List.Perm.refl arr
  | succ c ih =>
    intro arr
    exact (ih _).trans (siftDownLoop_perm less hi first (hi + 1) c arr)

theorem heapPop_perm [Inhabited α] (less : α → α → Bool) (first : Nat) :
    ∀ (c : Nat) (arr : List α), (heapPop less first arr c).Perm arr := by
  intro c
  induction c with
  | zero => intro arr; exact List.Perm.refl arr
  | succ c ih =>
    intro arr
    exact ((ih _).trans (siftDownLoop_perm less c first (c + 1) 0 _)).trans
      (swpL_perm arr first (first + c))

theorem heapSortRange_perm [Inhabited α] (less : α → α → Bool)
    (arr : List α) (a b : Nat) : (heapSortRange less arr a b).Perm arr :=
  (heapPop_perm less a (b - a) _).trans
    (heapBuild_perm less (b - a) a ((b - a - 1) / 2 + 1) arr)

theorem revLoop_perm [Inhabited α] :
    ∀ (fuel i j : Nat) (arr : List α), (revLoop fuel arr i j).Perm arr := by
  intro fuel
  induction fuel with
  | zero => intro i j arr; exact List.Perm.refl arr
  | succ fuel ih =>
    intro i j arr
    rw [revLoop]
    split
    · exact (ih (i + 1) (j - 1) _).trans (swpL_perm arr i j)
    · exact List.Perm.refl arr

theorem reverseRangeGo_perm [Inhabited α] (arr : List α) (a b : Nat) :
    (reverseRangeGo arr a b).Perm arr :=
  revLoop_perm (b + 1) a (b - 1) arr

theorem breakPatterns_perm [Inhabited α] (arr : List α) (a b : Nat) :
    (breakPatterns arr a b).Perm arr := by
  unfold breakPatterns
  split
  · exact ((swpL_perm _ _ _).trans (swpL_perm _ _ _)).trans (swpL_perm _ _ _)
  · exact List.Perm.refl arr

theorem shiftLeft_perm [Inhabited α] (less : α → α → Bool) :
    ∀ (j : Nat) (arr : List α), (shiftLeft less arr j).Perm arr := by
  intro j
  induction j with
  | zero => intro arr; exact List.Perm.refl arr
  | succ j ih =>
    intro arr
    rw [shiftLeft]
    split
    · exact List.Perm.refl arr
    · exact (ih _).trans (swpL_perm arr (j + 1) j)

theorem shiftRight_perm [Inhabited α] (less : α → α → Bool) (b : Nat) :
    ∀ (fuel j : Nat) (arr : List α), (shiftRight less b fuel arr j).Perm arr := by
  intro fuel
  induction fuel with
  | zero => intro j arr; exact List.Perm.refl arr
  | succ fuel ih =>
    intro j arr
    rw [shiftRight]
    split
    · split
      · exact List.Perm.refl arr
      · exact (ih (j + 1) _).trans (swpL_perm arr j (j - 1))
    · exact List.Perm.refl arr

theorem pisSteps_perm [Inhabited α] (less : α → α → Bool) (a b : Nat) :
    ∀ (st i : Nat) (arr : List α), ((pisSteps less a b arr i st).1).Perm arr := by
  intro st
  induction st with
  | zero => intro i arr; exact List.Perm.refl arr
  | succ st ih =>
    intro i arr
    simp only [pisSteps]
    split
    · exact List.Perm.refl arr
    · split
      · exact List.Perm.refl arr
      · refine (ih _ _).trans ?_
        have base : (swpL arr (pisAdvance less arr b i (b + 1))
            (pisAdvance less arr b i (b + 1) - 1)).Perm arr := swpL_perm _ _ _
        have mid : (if pisAdvance less arr b i (b + 1) - a ≥ 2 then
            shiftLeft less (swpL arr (pisAdvance less arr b i (b + 1))
              (pisAdvance less arr b i (b + 1) - 1))
              (pisAdvance less arr b i (b + 1) - 1)
          else swpL arr (pisAdvance less arr b i (b + 1))
            (pisAdvance less arr b i (b + 1) - 1)).Perm arr := by
          split
          · exact (shiftLeft_perm less _ _).trans base
          · exact base
        split
        · exact (shiftRight_perm less b (b + 1) _ _).trans mid
        · exact mid

theorem partialInsSort_perm [Inhabited α] (less : α → α → Bool)
    (arr : List α) (a b : Nat) : ((partialInsSort less arr a b).1).Perm arr :=
  pisSteps_perm less a b 5 (a + 1) arr

theorem partLoop_perm [Inhabited α] (less : α → α → Bool) (a : Nat) :
    ∀ (fuel : Nat) (arr : List α) (i j : Nat),
      ((partLoop less a fuel arr i j).1).Perm arr := by
  intro fuel
  induction fuel with
  | zero => intro arr i j; exact List.Perm.refl arr
  | succ fuel ih =>
    intro arr i j
    simp only [partLoop]
    split
    · exact List.Perm.refl arr
    · exact (ih _ _ _).trans (swpL_perm arr _ _)

theorem partitionGo_perm [Inhabited α] (less : α → α → Bool)
    (arr : List α) (a b pivot : Nat) :
    ((partitionGo less arr a b pivot).1).Perm arr := by
  simp only [partitionGo]
  split
  · exact (swpL_perm _ _ _).trans (swpL_perm arr a pivot)
  · exact ((swpL_perm _ _ _).trans
      ((partLoop_perm less a b _ _ _).trans
        ((swpL_perm _ _ _).trans (swpL_perm arr a pivot))))

theorem peLoop_perm [Inhabited α] (less : α → α → Bool) (a : Nat) :
    ∀ (fuel : Nat) (arr : List α) (i j : Nat),
      ((peLoop less a fuel arr i j).1).Perm arr := by
  intro fuel
  induction fuel with
  | zero => intro arr i j; exact List.Perm.refl arr
  | succ fuel ih =>
    intro arr i j
    simp only [peLoop]
    split
    · exact List.Perm.refl arr
    · exact (ih _ _ _).trans (swpL_perm arr _ _)

theorem partitionEqualGo_perm [Inhabited α] (less : α → α → Bool)
    (arr : List α) (a b pivot : Nat) :
    ((partitionEqualGo less arr a b pivot).1).Perm arr := by
  simp only [partitionEqualGo]
  exact (peLoop_perm less a b _ _ _).trans (swpL_perm arr a pivot)

theorem pdqBody3_perm [Inhabited α] (less : α → α → Bool) (arr : List α)
    (a b pivot : Nat) :
    (∀ out, pdqBody3 less arr a b pivot = PdqPlan.done out → out.Perm arr)
    ∧ (∀ arr2 mid, pdqBody3 less arr a b pivot = PdqPlan.equalCont arr2 mid →
        arr2.Perm arr)
    ∧ (∀ arr2 mid ap, pdqBody3 less arr a b pivot = PdqPlan.descend arr2 mid ap →
        arr2.Perm arr) := by
  unfold pdqBody3
  split
  · refine ⟨?_, ?_, ?_⟩
    · intro out h
      cases h
    · intro arr2 mid h
      cases h
      exact partitionEqualGo_perm less arr a b pivot
    · intro arr2 mid ap h
      cases h
  · refine ⟨?_, ?_, ?_⟩
    · intro out h
      cases h
    · intro arr2 mid h
      cases h
    · intro arr2 mid ap h
      cases h
      exact partitionGo_perm less arr a b pivot

theorem pdqBody2_perm [Inhabited α] (less : α → α → Bool) (arr : List α)
    (a b : Nat) (wb wp : Bool) (pivot : Nat) (hint : SHint) :
    (∀ out, pdqBody2 less arr a b wb wp pivot hint = PdqPlan.done out →
        out.Perm arr)
    ∧ (∀ arr2 mid, pdqBody2 less arr a b wb wp pivot hint =
        PdqPlan.equalCont arr2 mid → arr2.Perm arr)
    ∧ (∀ arr2 mid ap, pdqBody2 less arr a b wb wp pivot hint =
        PdqPlan.descend arr2 mid ap → arr2.Perm arr) := by
  unfold pdqBody2
  have hpis := partialInsSort_perm less arr a b
  split
  · split
    · refine ⟨?_, ?_, ?_⟩
      · intro out h
        cases h
        exact hpis
      · intro arr2 mid h
        cases h
      · intro arr2 mid ap h
        cases h
    · have h3 := pdqBody3_perm less (partialInsSort less arr a b).1 a b pivot
      refine ⟨?_, ?_, ?_⟩
      · intro out h
        exact (h3.1 out h).trans hpis
      · intro arr2 mid h
        exact (h3.2.1 arr2 mid h).trans hpis
      · intro arr2 mid ap h
        exact (h3.2.2 arr2 mid ap h).trans hpis
  · exact pdqBody3_perm less arr a b pivot

theorem pdqBody_perm [Inhabited α] (less : α → α → Bool) (arr : List α)
    (a b : Nat) (wb wp : Bool) :
    (∀ out, pdqBody less arr a b wb wp = PdqPlan.done out → out.Perm arr)
    ∧ (∀ arr2 mid, pdqBody less arr a b wb wp = PdqPlan.equalCont arr2 mid →
        arr2.Perm arr)
    ∧ (∀ arr2 mid ap, pdqBody less arr a b wb wp = PdqPlan.descend arr2 mid ap →
        arr2.Perm arr) := by
  unfold pdqBody
  split
  · have hrev := reverseRangeGo_perm arr a b
    have h2 := pdqBody2_perm less (reverseRangeGo arr a b) a b wb wp
      ((b - 1) - ((choosePivot less arr a b).1 - a)) SHint.incr
    refine ⟨?_, ?_, ?_⟩
    · intro out h
      exact (h2.1 out h).trans hrev
    · intro arr2 mid h
      exact (h2.2.1 arr2 mid h).trans hrev
    · intro arr2 mid ap h
      exact (h2.2.2 arr2 mid ap h).trans hrev
  · exact pdqBody2_perm less arr a b wb wp _ _

theorem pdqLoop_perm [Inhabited α] (less : α → α → Bool) : ∀ (fuel : Nat)
    (arr : List α) (a b limit : Nat) (wb wp : Bool),
    (pdqLoop less fuel arr a b limit wb wp).Perm arr := by
  intro fuel
  induction fuel with
  | zero => intro arr a b limit wb wp; exact List.Perm.refl arr
  | succ fuel ih =>
    intro arr a b limit wb wp
    have hpre : (if ! wb then breakPatterns arr a b else arr).Perm arr := by
      split
      · exact breakPatterns_perm arr a b
      · exact List.Perm.refl arr
    have hbody := pdqBody_perm less (if ! wb then breakPatterns arr a b else arr)
      a b wb wp
    rw [pdqLoop]
    split
    · exact insertionSortRange_perm less arr a b
    · split
      · exact heapSortRange_perm less arr a b
      · split
        · next out heq =>
          exact (hbody.1 out heq).trans hpre
        · next arr2 mid heq =>
          exact (ih _ _ _ _ _ _).trans ((hbody.2.1 arr2 mid heq).trans hpre)
        · next arr2 mid ap heq =>
          have harr2 := (hbody.2.2 arr2 mid ap heq).trans hpre
          split
          · exact (ih _ _ _ _ _ _).trans ((ih _ _ _ _ _ _).trans harr2)
          · exact (ih _ _ _ _ _ _).trans ((ih _ _ _ _ _ _).trans harr2)

theorem goSortSlice_perm [Inhabited α] (less : α → α → Bool) (l : List α) :
    (goSortSlice less l).Perm l :=
  pdqLoop_perm less (l.length + 1) l 0 l.length (bitsLen l.length) true true

theorem goSortSlice_length [Inhabited α] (less : α → α → Bool) (l : List α) :
    (goSortSlice less l).length = l.length :=
  (goSortSlice_perm less l).length_eq

theorem goSortSlice_mem [Inhabited α] (less : α → α → Bool) (l : List α)
    (x : α) : x ∈ goSortSlice less l ↔ x ∈ l :=
  (goSortSlice_perm less l).mem_iff

/-! ### Insertion sort as a pure list function

For ranges of at most 12 elements pdqsort is exactly its insertion sort.
Go's in-place insertion sort over the whole slice equals the following
list-level function: each element bubbles left through the already-sorted
prefix (kept reversed: head = rightmost) while strictly less. -/

/-- The inner loop as a list operation on the reversed prefix. -/
def bubbleRev (less : α → α → Bool) (x : α) : List α → List α
  | [] => [x]
  | y :: rp => if less x y then y :: bubbleRev less x rp else x :: y :: rp

/-- The outer loop: fold the remaining elements into the reversed prefix. -/
def insFold (less : α → α → Bool) : List α → List α → List α
  | rp, [] => rp.reverse
  | rp, x :: rest => insFold less (bubbleRev less x rp) rest

/-- List-level Go insertion sort of a whole list. -/
def insListGo (less : α → α → Bool) (l : List α) : List α :=
  insFold less [] l

theorem bubbleRev_length (less : α → α → Bool) (x : α) :
    ∀ (rp : List α), (bubbleRev less x rp).length = rp.length + 1 := by
  intro rp
  induction rp with
  | nil => rfl
  | cons y rp ih =>
    rw [bubbleRev]
    split
    · simpa using ih
    · simp

theorem bubbleRev_perm (less : α → α → Bool) (x : α) :
    ∀ (rp : List α), (bubbleRev less x rp).Perm (x :: rp) := by
  intro rp
  induction rp with
  | nil => exact List.Perm.refl _
  | cons y rp ih =>
    rw [bubbleRev]
    split
    · exact (List.Perm.cons y ih).trans (List.Perm.swap x y rp)
    · exact List.Perm.refl _

theorem geti_append_at (P : List α) (x : α) (S : List α) (n : Nat)
    [Inhabited α] (h : P.length = n) : geti (P ++ x :: S) n = x := by
  unfold geti
  rw [List.getD_append_right P (x :: S) default n (by omega)]
  simp [h]

theorem geti_append_mid (P : List α) (y x : α) (S : List α) (n : Nat)
    [Inhabited α] (h : P.length = n) : geti (P ++ y :: x :: S) (n + 1) = x := by
  unfold geti
  rw [List.getD_append_right P (y :: x :: S) default (n + 1) (by omega)]
  have : n + 1 - P.length = 1 := by omega
  simp [this]

theorem swpL_adj [Inhabited α] (P : List α) (u v : α) (S : List α) (n : Nat)
    (h : P.length = n) : swpL (P ++ u :: v :: S) (n + 1) n = P ++ v :: u :: S := by
  unfold swpL
  rw [if_pos (by constructor <;> (simp; omega))]
  rw [geti_append_at P u (v :: S) n h,
    geti_append_mid P u v S n h]
  rw [List.set_append, if_neg (by omega), List.set_append, if_neg (by omega)]
  have h1 : n + 1 - P.length = 1 := by omega
  have h2 : n - P.length = 0 := by omega
  simp [h1, h2]

theorem insInner_eq_bubble [Inhabited α] (less : α → α → Bool) :
    ∀ (Q : List α) (x : α) (S : List α),
      insInner less 0 (Q.reverse ++ x :: S) Q.length =
        (bubbleRev less x Q).reverse ++ S := by
  intro Q
  induction Q with
  | nil => intro x S; simp [insInner, bubbleRev]
  | cons y Q ih =>
    intro x S
    have harr : (y :: Q).reverse ++ x :: S = Q.reverse ++ y :: x :: S := by simp
    have hlen : (y :: Q).length = Q.length + 1 := rfl
    rw [harr, hlen, insInner]
    rw [geti_append_mid Q.reverse y x S Q.length (by simp),
      geti_append_at Q.reverse y (x :: S) Q.length (by simp)]
    by_cases hxy : less x y = true
    · rw [if_pos (by simp [hxy])]
      rw [swpL_adj Q.reverse y x S Q.length (by simp)]
      rw [ih x (y :: S)]
      simp [bubbleRev, hxy]
    · rw [if_neg (by simp [hxy])]
      simp [bubbleRev, hxy]

theorem insOuter_eq_fold [Inhabited α] (less : α → α → Bool) :
    ∀ (T R : List α),
      insOuter less 0 (R.reverse ++ T) R.length T.length = insFold less R T := by
  intro T
  induction T with
  | nil =>
    intro R
    simp only [List.length_nil]
    rw [insOuter]
    simp [insFold]
  | cons x T ih =>
    intro R
    simp only [List.length_cons]
    rw [insOuter]
    rw [insInner_eq_bubble less R x T]
    rw [show R.length + 1 = (bubbleRev less x R).length from by
      simp [bubbleRev_length]]
    rw [ih (bubbleRev less x R)]
    rfl

theorem insertionSortRange_eq_insListGo [Inhabited α] (less : α → α → Bool)
    (l : List α) : insertionSortRange less l 0 l.length = insListGo less l := by
  cases l with
  | nil => rfl
  | cons x t =>
    have h0 : insertionSortRange less (x :: t) 0 (x :: t).length =
        insOuter less 0 ([x].reverse ++ t) [x].length t.length := by
      simp [insertionSortRange]
    rw [h0, insOuter_eq_fold less t [x]]
    rfl

theorem goSortSlice_small [Inhabited α] (less : α → α → Bool) (l : List α)
    (h : l.length ≤ 12) : goSortSlice less l = insListGo less l := by
  unfold goSortSlice
  rw [pdqLoop]
  rw [if_pos (by omega)]
  exact insertionSortRange_eq_insListGo less l

/-! ### Sortedness and stability of the insertion sort

The comparator of dedupe.go is `decide (key u < key v)` for the
lexicographic key (volume name, modification time); the generic lemmas
below are stated for any comparator of that shape. -/

section InsSortProps

variable {α : Type} {κ : Type} [LinearOrder κ] (key : α → κ)
variable (less : α → α → Bool)

/-- The reversed prefix is ordered descending from its head. -/
def RevSorted (rp : List α) : Prop :=
  rp.Pairwise (fun u v => key v ≤ key u)

theorem bubbleRev_mem (x : α) (rp : List α) (z : α)
    (h : z ∈ bubbleRev less x rp) : z = x ∨ z ∈ rp := by
  have := (bubbleRev_perm less x rp).mem_iff.mp h
  simpa using this

theorem bubbleRev_revSorted
    (hless : ∀ u v, less u v = decide (key u < key v)) (x : α) :
    ∀ (rp : List α), RevSorted key rp → RevSorted key (bubbleRev less x rp) := by
  intro rp
  induction rp with
  | nil => intro _; simp [bubbleRev, RevSorted]
  | cons y rp ih =>
    intro hs
    rw [RevSorted, List.pairwise_cons] at hs
    rw [bubbleRev]
    split
    · next hxy =>
      rw [hless] at hxy
      have hxylt : key x < key y := of_decide_eq_true hxy
      rw [RevSorted, List.pairwise_cons]
      refine ⟨?_, ih hs.2⟩
      intro z hz
      rcases bubbleRev_mem less x rp z hz with h | h
      · exact h ▸ le_of_lt hxylt
      · exact hs.1 z h
    · next hxy =>
      rw [hless] at hxy
      have hyx : key y ≤ key x := by
        have := of_decide_eq_false (Bool.of_not_eq_true hxy)
        exact le_of_not_lt this
      rw [RevSorted, List.pairwise_cons]
      refine ⟨?_, List.pairwise_cons.mpr hs⟩
      intro z hz
      rcases List.mem_cons.mp hz with h | h
      · exact h ▸ hyx
      · exact le_trans (hs.1 z h) hyx

theorem insFold_pairwise
    (hless : ∀ u v, less u v = decide (key u < key v)) :
    ∀ (T rp : List α), RevSorted key rp →
      (insFold less rp T).Pairwise (fun u v => key u ≤ key v) := by
  intro T
  induction T with
  | nil =>
    intro rp hs
    rw [insFold]
    rw [List.pairwise_reverse]
    exact hs
  | cons x T ih =>
    intro rp hs
    rw [insFold]
    exact ih (bubbleRev less x rp) (bubbleRev_revSorted key less hless x rp hs)

theorem insListGo_pairwise
    (hless : ∀ u v, less u v = decide (key u < key v)) (l : List α) :
    (insListGo less l).Pairwise (fun u v => key u ≤ key v) :=
  insFold_pairwise key less hless l [] (List.Pairwise.nil)

theorem bubbleRev_filter
    (hless : ∀ u v, less u v = decide (key u < key v)) (k : κ) (x : α) :
    ∀ (rp : List α),
      (bubbleRev less x rp).filter (fun u => decide (key u = k)) =
        (if key x = k then [x] else []) ++
          rp.filter (fun u => decide (key u = k)) := by
  intro rp
  induction rp with
  | nil =>
    rw [bubbleRev]
    by_cases hx : key x = k <;> simp [hx]
  | cons y rp ih =>
    rw [bubbleRev]
    split
    · next hxy =>
      rw [hless] at hxy
      have hxylt : key x < key y := of_decide_eq_true hxy
      by_cases hx : key x = k
      · have hy : ¬ key y = k := by
          intro hy
          rw [hx] at hxylt
          rw [hy] at hxylt
          exact lt_irrefl k hxylt
        simp only [List.filter_cons]
        rw [ih]
        simp [hx, hy]
      · simp only [List.filter_cons]
        rw [ih]
        by_cases hy : key y = k <;> simp [hx, hy]
    · next hxy =>
      by_cases hx : key x = k <;> by_cases hy : key y = k <;>
        simp [List.filter_cons, hx, hy]

theorem insFold_filter
    (hless : ∀ u v, less u v = decide (key u < key v)) (k : κ) :
    ∀ (T rp : List α),
      (insFold less rp T).filter (fun u => decide (key u = k)) =
        (rp.filter (fun u => decide (key u = k))).reverse ++
          T.filter (fun u => decide (key u = k)) := by
  intro T
  induction T with
  | nil =>
    intro rp
    rw [insFold]
    simp [List.filter_reverse]
  | cons x T ih =>
    intro rp
    rw [insFold]
    rw [ih (bubbleRev less x rp)]
    rw [bubbleRev_filter key less hless k x rp]
    by_cases hx : key x = k <;> simp [hx, List.filter_cons]

theorem insListGo_filter
    (hless : ∀ u v, less u v = decide (key u < key v)) (k : κ) (l : List α) :
    (insListGo less l).filter (fun u => decide (key u = k)) =
      l.filter (fun u => decide (key u = k)) := by
  have := insFold_filter key less hless k l []
  simpa [insListGo] using this

end InsSortProps

/-! ### The comparator is the lexicographic key order -/

/-- The sort key the comparator implements: (volume name, modification
time), compared lexicographically. -/
def keyOf (stat : String → FileMeta) (p : String) : Lex (String × Int) :=
  toLex (goVolumeName p, (stat p).modTime)

theorem lessTotal_eq_key (stat : String → FileMeta) (x y : String) :
    lessTotal stat x y = decide (keyOf stat x < keyOf stat y) := by
  simp only [lessTotal, keyOf]
  by_cases h : goVolumeName x = goVolumeName y
  · rw [if_neg (not_not_intro h)]
    apply decide_eq_decide.mpr
    rw [Prod.Lex.lt_iff]
    simp [h]
  · rw [if_pos h]
    apply decide_eq_decide.mpr
    rw [Prod.Lex.lt_iff]
    simp [h]

/-! ### Volume-name facts (claim C10) -/

/-- A path carrying a Windows-style volume prefix: a drive-letter prefix
(`C:`), a double-separator prefix (UNC or `\\.` / `\\?` device paths), or a
`\??` Root Local Device prefix.  POSIX paths satisfy none of these. -/
def winVolShape (p : String) : Prop :=
  (2 ≤ p.data.length ∧ p.data.getD 1 ' ' = ':' ∧
    (('a' ≤ p.data.getD 0 ' ' ∧ p.data.getD 0 ' ' ≤ 'z') ∨
      ('A' ≤ p.data.getD 0 ' ' ∧ p.data.getD 0 ' ' ≤ 'Z')))
  ∨ (2 ≤ p.data.length ∧ isSlashC (p.data.getD 0 ' ') = true ∧
      isSlashC (p.data.getD 1 ' ') = true)
  ∨ (3 ≤ p.data.length ∧ isSlashC (p.data.getD 0 ' ') = true ∧
      p.data.getD 1 ' ' = '?' ∧ p.data.getD 2 ' ' = '?')

instance (p : String) : Decidable (winVolShape p) := by
  unfold winVolShape
  infer_instance

theorem toUpperC_eq_qm (c : Char) (h : toUpperC c = toUpperC '?') : c = '?' := by
  have hq : toUpperC '?' = '?' := by decide
  rw [hq] at h
  unfold toUpperC at h
  by_cases hc : 'a' ≤ c ∧ c ≤ 'z'
  · rw [if_pos hc] at h
    exfalso
    have l1 : 97 ≤ c.toNat := hc.1
    have l2 : c.toNat ≤ 122 := hc.2
    have hv : Nat.isValidChar (c.toNat - 32) := by left; omega
    have h3 : (Char.ofNat (c.toNat - 32)).toNat = c.toNat - 32 := by
      unfold Char.ofNat
      rw [dif_pos hv]
      rfl
    have h4 := congrArg Char.toNat h
    rw [h3] at h4
    have hqn : ('?').toNat = 63 := by decide
    omega
  · rw [if_neg hc] at h
    exact h

theorem hasPfxFold_twoSlash (rest : List Char) (l : List Char)
    (h : hasPfxFold l ('\\' :: '\\' :: rest) = true) :
    2 ≤ l.length ∧ isSlashC (l.getD 0 ' ') = true ∧
      isSlashC (l.getD 1 ' ') = true := by
  match l with
  | [] => simp [hasPfxFold] at h
  | [c0] =>
    rw [hasPfxFold] at h
    rw [if_pos (by decide)] at h
    simp [hasPfxFold] at h
  | c0 :: c1 :: l' =>
    rw [hasPfxFold] at h
    rw [if_pos (by decide)] at h
    rw [Bool.and_eq_true] at h
    have h2 := h.2
    rw [hasPfxFold] at h2
    rw [if_pos (by decide)] at h2
    rw [Bool.and_eq_true] at h2
    exact ⟨by simp, h.1, h2.1⟩

theorem hasPfxFold_bsqq (l : List Char)
    (h : hasPfxFold l ['\\', '?', '?'] = true) :
    3 ≤ l.length ∧ isSlashC (l.getD 0 ' ') = true ∧
      l.getD 1 ' ' = '?' ∧ l.getD 2 ' ' = '?' := by
  match l with
  | [] => simp [hasPfxFold] at h
  | [c0] =>
    rw [hasPfxFold] at h
    rw [if_pos (by decide)] at h
    simp [hasPfxFold] at h
  | [c0, c1] =>
    rw [hasPfxFold] at h
    rw [if_pos (by decide)] at h
    rw [Bool.and_eq_true] at h
    have h2 := h.2
    rw [hasPfxFold] at h2
    rw [if_neg (by decide)] at h2
    rw [Bool.and_eq_true] at h2
    simp [hasPfxFold] at h2
  | c0 :: c1 :: c2 :: l' =>
    rw [hasPfxFold] at h
    rw [if_pos (by decide)] at h
    rw [Bool.and_eq_true] at h
    have h2 := h.2
    rw [hasPfxFold] at h2
    rw [if_neg (by decide)] at h2
    rw [Bool.and_eq_true] at h2
    have h3 := h2.2
    rw [hasPfxFold] at h3
    rw [if_neg (by decide)] at h3
    rw [Bool.and_eq_true] at h3
    have hc1 : c1 = '?' := toUpperC_eq_qm c1 (by
      have := h2.1
      exact of_decide_eq_true this)
    have hc2 : c2 = '?' := toUpperC_eq_qm c2 (by
      have := h3.1
      exact of_decide_eq_true this)
    exact ⟨by simp, h.1, hc1, hc2⟩

theorem volumeNameLen_eq_zero (l : List Char)
    (hdrive : ¬ (2 ≤ l.length ∧ l.getD 1 ' ' = ':' ∧
      (('a' ≤ l.getD 0 ' ' ∧ l.getD 0 ' ' ≤ 'z') ∨
        ('A' ≤ l.getD 0 ' ' ∧ l.getD 0 ' ' ≤ 'Z'))))
    (hunc : ¬ (2 ≤ l.length ∧ isSlashC (l.getD 0 ' ') = true ∧
      isSlashC (l.getD 1 ' ') = true))
    (hdev : ¬ (3 ≤ l.length ∧ isSlashC (l.getD 0 ' ') = true ∧
      l.getD 1 ' ' = '?' ∧ l.getD 2 ' ' = '?')) :
    volumeNameLen l = 0 := by
  unfold volumeNameLen
  rw [if_neg hdrive]
  by_cases h0 : l.length = 0 ∨ ¬ isSlashC (l.getD 0 ' ') = true
  · rw [if_pos h0]
  · rw [if_neg h0]
    push_neg at h0
    rw [if_neg (fun h => hunc (by
      have := hasPfxFold_twoSlash ['.', '\\', 'U', 'N', 'C'] l h
      exact this))]
    rw [if_neg (by
      intro h
      rcases Bool.or_eq_true _ _ |>.mp h with h | h
      · rcases Bool.or_eq_true _ _ |>.mp h with h | h
        · exact hunc (hasPfxFold_twoSlash ['.'] l h)
        · exact hunc (hasPfxFold_twoSlash ['?'] l h)
      · exact hdev (hasPfxFold_bsqq l h))]
    rw [if_neg (fun h => hunc ⟨h.1, h0.2, h.2⟩)]

theorem goVolumeName_eq_empty (p : String) (h : ¬ winVolShape p) :
    goVolumeName p = "" := by
  unfold goVolumeName
  rw [volumeNameLen_eq_zero p.data
    (fun hc => h (Or.inl hc))
    (fun hc => h (Or.inr (Or.inl hc)))
    (fun hc => h (Or.inr (Or.inr hc)))]
  rfl

/-! ### Dry-run facts (claim C1) -/

theorem processDup_dry (env : Env) (cfg : RunConfig)
    (hdry : cfg.dryRun = true) (st : DelState) (dup : String) :
    (processDup env cfg st dup).deleted = st.deleted ∧
      (processDup env cfg st dup).removed = st.removed := by
  simp [processDup, hdry]

theorem foldDups_dry (env : Env) (cfg : RunConfig)
    (hdry : cfg.dryRun = true) :
    ∀ (dups : List String) (st : DelState),
      (dups.foldl (processDup env cfg) st).deleted = st.deleted ∧
        (dups.foldl (processDup env cfg) st).removed = st.removed := by
  intro dups
  induction dups with
  | nil => intro st; exact ⟨rfl, rfl⟩
  | cons d dups ih =>
    intro st
    have h1 := processDup_dry env cfg hdry st d
    have h2 := ih (processDup env cfg st d)
    exact ⟨h2.1.trans h1.1, h2.2.trans h1.2⟩

theorem processGroup_dry (env : Env) (cfg : RunConfig)
    (hdry : cfg.dryRun = true) (st : DelState) (d : String)
    (files : List String) :
    (processGroup env cfg st d files).deleted = st.deleted ∧
      (processGroup env cfg st d files).removed = st.removed := by
  unfold processGroup
  split
  · exact ⟨rfl, rfl⟩
  · split
    · exact ⟨rfl, rfl⟩
    · exact foldDups_dry env cfg hdry _ _

theorem delPhase_dry (env : Env) (cfg : RunConfig)
    (hdry : cfg.dryRun = true) (hm : List (String × List String)) :
    ∀ (hashOrder : List String) (st : DelState),
      ((hashOrder.foldl
        (fun st d =>
          match lookupAL hm d with
          | none => st
          | some files => processGroup env cfg st d files) st).deleted =
        st.deleted) ∧
      ((hashOrder.foldl
        (fun st d =>
          match lookupAL hm d with
          | none => st
          | some files => processGroup env cfg st d files) st).removed =
        st.removed) := by
  intro hashOrder
  induction hashOrder with
  | nil => intro st; exact ⟨rfl, rfl⟩
  | cons d hashOrder ih =>
    intro st
    refine ⟨(ih _).1.trans ?_, (ih _).2.trans ?_⟩
    · cases hl : lookupAL hm d with
      | none => simp [hl]
      | some files => simp [hl, (processGroup_dry env cfg hdry st d files).1]
    · cases hl : lookupAL hm d with
      | none => simp [hl]
      | some files => simp [hl, (processGroup_dry env cfg hdry st d files).2]

/-- C1: with --dry-run set, os.Remove is never invoked — the run's list of
deletion calls (and of successful removals) is empty, whatever the inputs,
the hash results, the confirmation responses and the --confirm flag; hence
the file system's set of paths is untouched by the run. -/
theorem C1_dry_run_never_deletes (env : Env) (confirm : Bool)
    (sizeOrder : List Nat) (hashOrder : List String) :
    (dedupeRun env ⟨true, confirm⟩ sizeOrder hashOrder).deleted = [] ∧
      (dedupeRun env ⟨true, confirm⟩ sizeOrder hashOrder).removed = [] := by
  unfold dedupeRun delPhase
  exact delPhase_dry env ⟨true, confirm⟩ rfl _ hashOrder _

/-! ### Claim C4: os.Stat failure in the comparator and in the statistics -/

/-- A post-scan world where /x/b has vanished: os.Stat fails on it. -/
def statC4 : String → Option FileMeta :=
  fun p => if p = "/x/a" then some ⟨5, 1, false, false⟩ else none

/-- C4 (against the claim, the code crashes): when os.Stat fails for a file
during comparator evaluation and the volume names agree, the discarded
error leaves a nil os.FileInfo whose ModTime() call panics; the same
happens for Size() at statistics-accumulation time.  The run aborts rather
than treating the file as having an empty/lowest key. -/
theorem C4_stat_failure_panics :
    lessPanicking statC4 "/x/a" "/x/b" = Except.error () ∧
      sizePanicking statC4 "/x/b" = Except.error () := ⟨rfl, rfl⟩

/-! ### Claim C10: the partition key is pure and empty on POSIX paths -/

/-- C10: the partition key used for ordering is filepath.VolumeName — a
pure function of the path string, never read from the file system; every
path without a Windows-style volume prefix (in particular every POSIX
path) has the empty volume key, and between two such paths the comparator
reduces to the modification-time comparison alone. -/
theorem C10_volume_key (p : String) (hp : ¬ winVolShape p)
    (stat : String → FileMeta) (x y : String)
    (hx : ¬ winVolShape x) (hy : ¬ winVolShape y) :
    goVolumeName p = "" ∧
      lessTotal stat x y = decide ((stat x).modTime < (stat y).modTime) := by
  refine ⟨goVolumeName_eq_empty p hp, ?_⟩
  simp only [lessTotal]
  rw [goVolumeName_eq_empty x hx, goVolumeName_eq_empty y hy]
  simp

/-- C10 witness: concrete POSIX paths, absolute and relative. -/
theorem C10_volume_key_witness :
    ¬ winVolShape "/home/user/docs/a.txt" ∧
      (goVolumeName "/home/user/docs/a.txt" = "" ∧
        lessTotal (fun _ => ⟨7, 3, false, false⟩) "/tmp/a" "b/c.txt" =
          decide (((fun (_ : String) => (⟨7, 3, false, false⟩ : FileMeta))
              "/tmp/a").modTime <
            ((fun (_ : String) => (⟨7, 3, false, false⟩ : FileMeta))
              "b/c.txt").modTime)) :=
  ⟨by decide,
    C10_volume_key "/home/user/docs/a.txt" (by decide) _ "/tmp/a" "b/c.txt"
      (by decide) (by decide)⟩

/-! ### Claim C3: ordering policy and (in)stability of sort.Slice -/

/-- C3 (amended): the keeper-selection comparator orders by partition
volume name ascending, then modification time ascending; for digest groups
of at most 12 files — where sort.Slice runs its insertion sort — entries
fully tied on both keys also keep their discovery order.  (For larger
groups sort.Slice gives no stability guarantee; see the counterexample.) -/
theorem C3_keeper_ordering_small (stat : String → FileMeta)
    (files : List String) (h : files.length ≤ 12) :
    (goSortSlice (lessTotal stat) files).Pairwise (fun u v =>
        goVolumeName u < goVolumeName v ∨
          (goVolumeName u = goVolumeName v ∧
            (stat u).modTime ≤ (stat v).modTime))
    ∧ ∀ z, (goSortSlice (lessTotal stat) files).filter
          (fun u => decide (goVolumeName u = goVolumeName z ∧
            (stat u).modTime = (stat z).modTime)) =
        files.filter (fun u => decide (goVolumeName u = goVolumeName z ∧
          (stat u).modTime = (stat z).modTime)) := by
  have hless : ∀ u v,
      lessTotal stat u v = decide (keyOf stat u < keyOf stat v) :=
    lessTotal_eq_key stat
  rw [goSortSlice_small (lessTotal stat) files h]
  constructor
  · have hp := insListGo_pairwise (keyOf stat) (lessTotal stat) hless files
    refine hp.imp ?_
    intro u v huv
    have hle : toLex (goVolumeName u, (stat u).modTime) ≤
        toLex (goVolumeName v, (stat v).modTime) := huv
    rw [Prod.Lex.le_iff] at hle
    exact hle
  · intro z
    have hiff : ∀ u, (keyOf stat u = keyOf stat z) ↔
        (goVolumeName u = goVolumeName z ∧
          (stat u).modTime = (stat z).modTime) := by
      intro u
      unfold keyOf
      rw [toLex_inj, Prod.mk.injEq]
    have hgen := insListGo_filter (keyOf stat) (lessTotal stat) hless
      (keyOf stat z) files
    refine Eq.trans (Eq.trans ?_ hgen) ?_
    · refine List.filter_congr ?_
      intro a _
      rw [decide_eq_decide]
      exact (hiff a).symm
    · refine List.filter_congr ?_
      intro a _
      rw [decide_eq_decide]
      exact hiff a

/-- Metadata for the C3 witness group: three same-volume files with
distinct modification times, discovered out of order. -/
def statW : String → FileMeta :=
  fun p => ⟨1, if p = "w1" then 5 else if p = "w2" then 2 else 2, false, false⟩

/-- C3 witness: applying the small-group ordering theorem to a concrete
three-file group. -/
theorem C3_keeper_ordering_small_witness :
    (["w1", "w2", "w3"] : List String).length ≤ 12 ∧
    ((goSortSlice (lessTotal statW) ["w1", "w2", "w3"]).Pairwise (fun u v =>
        goVolumeName u < goVolumeName v ∨
          (goVolumeName u = goVolumeName v ∧
            (statW u).modTime ≤ (statW v).modTime))
      ∧ ∀ z, (goSortSlice (lessTotal statW) ["w1", "w2", "w3"]).filter
            (fun u => decide (goVolumeName u = goVolumeName z ∧
              (statW u).modTime = (statW z).modTime)) =
          (["w1", "w2", "w3"] : List String).filter
            (fun u => decide (goVolumeName u = goVolumeName z ∧
              (statW u).modTime = (statW z).modTime))) :=
  ⟨by decide, C3_keeper_ordering_small statW ["w1", "w2", "w3"] (by decide)⟩

/-- Metadata of the 13-file counterexample group: same (empty) volume,
modification times 2,2,0,1,0,1,1,0,0,1,0,0,0 in discovery order. -/
def stat13 : String → FileMeta := fun p =>
  ⟨100,
    (if p = "p00" then 2 else if p = "p01" then 2 else if p = "p03" then 1
     else if p = "p05" then 1 else if p = "p06" then 1 else if p = "p09" then 1
     else 0 : Int),
    false, false⟩

/-- The 13 paths of the counterexample group, in discovery order. -/
def files13 : List String :=
  ["p00", "p01", "p02", "p03", "p04", "p05", "p06",
   "p07", "p08", "p09", "p10", "p11", "p12"]

set_option maxRecDepth 100000 in
/-- C3 counterexample: in this 13-file digest group the files "p02" and
"p07" are fully tied on both sort keys (same volume, same modification
time) and "p02" is discovered first, yet after sort.Slice — which
partitions groups larger than 12 instead of insertion-sorting them —
"p07" precedes "p02".  sort.Slice is not stable, so fully-tied entries do
not keep their insertion/discovery order. -/
theorem C3_stability_counterexample :
    (lessTotal stat13 "p02" "p07" = false ∧
      lessTotal stat13 "p07" "p02" = false) ∧
    List.indexOf "p02" files13 < List.indexOf "p07" files13 ∧
    List.indexOf "p07" (goSortSlice (lessTotal stat13) files13) <
      List.indexOf "p02" (goSortSlice (lessTotal stat13) files13) := by
  decide

/-! ### Association-map facts

The two Go maps are built exclusively through `m[k] = append(m[k], v)`;
`buildAL` is that construction folded over a stream of key/value pairs,
and the lemmas characterise lookups, key sets and their Nodup-ness. -/

/-- The slice stored under a key (nil when absent). -/
def valsOf [DecidableEq κ] (m : List (κ × List ν)) (k : κ) : List ν :=
  (lookupAL m k).getD []

/-- Fold a pair stream into a map by appendAL. -/
def buildAL [DecidableEq κ] (ps : List (κ × ν))
    (m : List (κ × List ν)) : List (κ × List ν) :=
  ps.foldl (fun m p => appendAL m p.1 p.2) m

theorem lookupAL_appendAL [DecidableEq κ] (m : List (κ × List ν))
    (k : κ) (v : ν) (k' : κ) :
    lookupAL (appendAL m k v) k' =
      if k' = k then some (valsOf m k ++ [v]) else lookupAL m k' := by
  induction m with
  | nil =>
    by_cases h : k' = k <;> simp [appendAL, lookupAL, valsOf, h]
  | cons kv m ih =>
    obtain ⟨k0, vs⟩ := kv
    by_cases hk : k = k0
    · subst hk
      by_cases h' : k' = k <;> simp [appendAL, lookupAL, valsOf, h']
    · rw [appendAL, if_neg hk]
      by_cases h' : k' = k0
      · subst h'
        rw [lookupAL, if_pos rfl]
        rw [if_neg (by intro h; rw [h] at hk; exact hk rfl)]
        rw [lookupAL, if_pos rfl]
      · rw [lookupAL, if_neg h', ih]
        by_cases h2 : k' = k
        · subst h2
          rw [if_pos rfl, if_pos rfl]
          have : valsOf ((k0, vs) :: m) k' = valsOf m k' := by
            simp [valsOf, lookupAL, h']
          rw [this]
        · rw [if_neg h2, if_neg h2]
          rw [lookupAL, if_neg h']

theorem mem_keysAL_appendAL [DecidableEq κ] (m : List (κ × List ν))
    (k : κ) (v : ν) (k' : κ) :
    k' ∈ keysAL (appendAL m k v) ↔ k' ∈ keysAL m ∨ k' = k := by
  induction m with
  | nil => simp [appendAL, keysAL]
  | cons kv m ih =>
    obtain ⟨k0, vs⟩ := kv
    by_cases hk : k = k0
    · subst hk
      rw [appendAL, if_pos rfl]
      simp only [keysAL, List.map_cons, List.mem_cons]
      constructor
      · intro h
        exact Or.inl h
      · intro h
        rcases h with h | h
        · exact h
        · exact Or.inl h
    · rw [appendAL, if_neg hk]
      simp only [keysAL, List.map_cons, List.mem_cons] at ih ⊢
      constructor
      · intro h
        rcases h with h | h
        · exact Or.inl (Or.inl h)
        · rcases ih.mp h with h | h
          · exact Or.inl (Or.inr h)
          · exact Or.inr h
      · intro h
        rcases h with (h | h) | h
        · exact Or.inl h
        · exact Or.inr (ih.mpr (Or.inl h))
        · exact Or.inr (ih.mpr (Or.inr h))

theorem nodup_keysAL_appendAL [DecidableEq κ] (m : List (κ × List ν))
    (k : κ) (v : ν) (h : (keysAL m).Nodup) :
    (keysAL (appendAL m k v)).Nodup := by
  induction m with
  | nil => simp [appendAL, keysAL]
  | cons kv m ih =>
    obtain ⟨k0, vs⟩ := kv
    simp only [keysAL, List.map_cons, List.nodup_cons] at h
    by_cases hk : k = k0
    · subst hk
      simpa [appendAL, keysAL, List.nodup_cons] using h
    · rw [appendAL, if_neg hk]
      simp only [keysAL, List.map_cons, List.nodup_cons]
      refine ⟨?_, ih h.2⟩
      intro hmem
      rcases (mem_keysAL_appendAL m k v k0).mp hmem with hmem | hmem
      · exact h.1 hmem
      · exact hk hmem.symm

theorem lookupAL_isSome_iff [DecidableEq κ] (m : List (κ × List ν)) (k : κ) :
    (lookupAL m k).isSome = true ↔ k ∈ keysAL m := by
  induction m with
  | nil => simp [lookupAL, keysAL]
  | cons kv m ih =>
    obtain ⟨k0, vs⟩ := kv
    by_cases h : k = k0
    · subst h
      simp [lookupAL, keysAL]
    · simp [lookupAL, keysAL, h, ih]

theorem lookupAL_eq [DecidableEq κ] (m : List (κ × List ν)) (k : κ) :
    lookupAL m k = if k ∈ keysAL m then some (valsOf m k) else none := by
  by_cases h : k ∈ keysAL m
  · rw [if_pos h]
    have hs := (lookupAL_isSome_iff m k).mpr h
    obtain ⟨vs, hvs⟩ := Option.isSome_iff_exists.mp hs
    rw [hvs]
    simp [valsOf, hvs]
  · rw [if_neg h]
    by_cases hs : (lookupAL m k).isSome = true
    · exact absurd ((lookupAL_isSome_iff m k).mp hs) h
    · exact Option.not_isSome_iff_eq_none.mp hs

theorem valsOf_buildAL [DecidableEq κ] :
    ∀ (ps : List (κ × ν)) (m : List (κ × List ν)) (k : κ),
      valsOf (buildAL ps m) k =
        valsOf m k ++ (ps.filter (fun p => p.1 = k)).map Prod.snd := by
  intro ps
  induction ps with
  | nil => intro m k; simp [buildAL]
  | cons p ps ih =>
    intro m k
    have hstep : buildAL (p :: ps) m = buildAL ps (appendAL m p.1 p.2) := rfl
    rw [hstep, ih]
    have hv : valsOf (appendAL m p.1 p.2) k =
        if k = p.1 then valsOf m k ++ [p.2] else valsOf m k := by
      unfold valsOf
      rw [lookupAL_appendAL]
      by_cases h : k = p.1 <;> simp [h, valsOf]
    by_cases h : p.1 = k
    · rw [hv, if_pos h.symm]
      simp [List.filter_cons, h]
    · rw [hv, if_neg (fun hh => h hh.symm)]
      simp [List.filter_cons, h]

theorem mem_keysAL_buildAL [DecidableEq κ] :
    ∀ (ps : List (κ × ν)) (m : List (κ × List ν)) (k : κ),
      k ∈ keysAL (buildAL ps m) ↔ k ∈ keysAL m ∨ k ∈ ps.map Prod.fst := by
  intro ps
  induction ps with
  | nil => intro m k; simp [buildAL]
  | cons p ps ih =>
    intro m k
    have hstep : buildAL (p :: ps) m = buildAL ps (appendAL m p.1 p.2) := rfl
    rw [hstep, ih]
    rw [mem_keysAL_appendAL]
    simp only [List.map_cons, List.mem_cons]
    constructor
    · intro h
      rcases h with (h | h) | h
      · exact Or.inl h
      · exact Or.inr (Or.inl h)
      · exact Or.inr (Or.inr h)
    · intro h
      rcases h with h | h | h
      · exact Or.inl (Or.inl h)
      · exact Or.inl (Or.inr h)
      · exact Or.inr h

theorem nodup_keysAL_buildAL [DecidableEq κ] :
    ∀ (ps : List (κ × ν)) (m : List (κ × List ν)),
      (keysAL m).Nodup → (keysAL (buildAL ps m)).Nodup := by
  intro ps
  induction ps with
  | nil => intro m h; exact h
  | cons p ps ih =>
    intro m h
    exact ih (appendAL m p.1 p.2) (nodup_keysAL_appendAL m p.1 p.2 h)

/-! ### The size map and the hashing phase, characterised -/

/-- The (size, path) records the walk callback accepts: no error, not a
directory, not a symlink, nonzero size. -/
def validRecs (walk : List WalkEntry) : List (Nat × String) :=
  walk.filterMap (fun e =>
    match e with
    | .err _ => none
    | .entry path info =>
      if info.isDir then none
      else if info.isSymlink then none
      else if info.size = 0 then none
      else some (info.size, path))

theorem buildSizeMap_eq_buildAL :
    ∀ (walk : List WalkEntry) (m : List (Nat × List String)),
      walk.foldl walkStep m = buildAL (validRecs walk) m := by
  intro walk
  induction walk with
  | nil => intro m; rfl
  | cons e walk ih =>
    intro m
    show walk.foldl walkStep (walkStep m e) = _
    cases e with
    | err p =>
      have hv : validRecs (WalkEntry.err p :: walk) = validRecs walk := by
        simp [validRecs]
      rw [hv]
      exact ih m
    | entry p info =>
      by_cases h1 : info.isDir = true
      · have hv : validRecs (WalkEntry.entry p info :: walk) = validRecs walk := by
          simp [validRecs, h1]
        rw [hv]
        have hw : walkStep m (WalkEntry.entry p info) = m := by
          simp [walkStep, h1]
        rw [hw]
        exact ih m
      · by_cases h2 : info.isSymlink = true
        · have hv : validRecs (WalkEntry.entry p info :: walk) = validRecs walk := by
            simp [validRecs, h1, h2]
          rw [hv]
          have hw : walkStep m (WalkEntry.entry p info) = m := by
            simp [walkStep, h1, h2]
          rw [hw]
          exact ih m
        · by_cases h3 : info.size = 0
          · have hv : validRecs (WalkEntry.entry p info :: walk) =
                validRecs walk := by
              simp [validRecs, h1, h2, h3]
            rw [hv]
            have hw : walkStep m (WalkEntry.entry p info) = m := by
              simp [walkStep, h1, h2, h3]
            rw [hw]
            exact ih m
          · have hv : validRecs (WalkEntry.entry p info :: walk) =
                (info.size, p) :: validRecs walk := by
              simp [validRecs, h1, h2, h3]
            rw [hv]
            have hw : walkStep m (WalkEntry.entry p info) =
                appendAL m info.size p := by
              simp [walkStep, h1, h2, h3]
            rw [hw]
            exact ih (appendAL m info.size p)

/-- The bucket of one size: the accepted paths of that size, in walk
order. -/
def bucket (walk : List WalkEntry) (s : Nat) : List String :=
  ((validRecs walk).filter (fun r => r.1 = s)).map Prod.snd

theorem valsOf_buildSizeMap (walk : List WalkEntry) (s : Nat) :
    valsOf (buildSizeMap walk) s = bucket walk s := by
  unfold buildSizeMap bucket
  rw [buildSizeMap_eq_buildAL]
  rw [valsOf_buildAL]
  simp [valsOf, lookupAL]

theorem nodup_keys_buildSizeMap (walk : List WalkEntry) :
    (keysAL (buildSizeMap walk)).Nodup := by
  unfold buildSizeMap
  rw [buildSizeMap_eq_buildAL]
  exact nodup_keysAL_buildAL (validRecs walk) [] (by simp [keysAL])

/-- The members of one bucket lookup that get hashed: nothing for a
missing or sub-2 bucket, the whole bucket otherwise. -/
def bucketHashedO : Option (List String) → List String
  | none => []
  | some files => if files.length < 2 then [] else files

/-- The (digest, path) pairs one bucket lookup contributes to hashMap. -/
def bucketPairsO (hashFn : String → Option String) :
    Option (List String) → List (String × String)
  | none => []
  | some files =>
    if files.length < 2 then []
    else files.filterMap (fun p => (hashFn p).map (fun d => (d, p)))

/-- The paths handed to fileHash, in hashing order. -/
def hashedOf (sm : List (Nat × List String)) (sizeOrder : List Nat) :
    List String :=
  sizeOrder.flatMap (fun s => bucketHashedO (lookupAL sm s))

/-- The (digest, path) pairs appended to hashMap, in order. -/
def pairsOf (hashFn : String → Option String)
    (sm : List (Nat × List String)) (sizeOrder : List Nat) :
    List (String × String) :=
  sizeOrder.flatMap (fun s => bucketPairsO hashFn (lookupAL sm s))

theorem hashFold_char (hashFn : String → Option String) :
    ∀ (files : List String) (st : HashState),
      (files.foldl (hashFile hashFn) st).hashMap =
        buildAL (files.filterMap
          (fun p => (hashFn p).map (fun d => (d, p)))) st.hashMap
      ∧ (files.foldl (hashFile hashFn) st).totalFiles =
        st.totalFiles + (files.filterMap
          (fun p => (hashFn p).map (fun d => (d, p)))).length
      ∧ (files.foldl (hashFile hashFn) st).hashed = st.hashed ++ files := by
  intro files
  induction files with
  | nil => intro st; exact ⟨rfl, rfl, by simp⟩
  | cons p files ih =>
    intro st
    cases hh : hashFn p with
    | none =>
      have hstep : hashFile hashFn st p =
          { st with hashed := st.hashed ++ [p] } := by
        simp [hashFile, hh]
      refine ⟨?_, ?_, ?_⟩
      · rw [List.foldl_cons, hstep, (ih _).1]
        simp [hh]
      · rw [List.foldl_cons, hstep, (ih _).2.1]
        simp [hh]
      · rw [List.foldl_cons, hstep, (ih _).2.2]
        simp
    | some d =>
      have hstep : hashFile hashFn st p =
          { st with hashed := st.hashed ++ [p],
                    hashMap := appendAL st.hashMap d p,
                    totalFiles := st.totalFiles + 1 } := by
        simp [hashFile, hh]
      refine ⟨?_, ?_, ?_⟩
      · rw [List.foldl_cons, hstep, (ih _).1]
        simp [hh, buildAL]
      · rw [List.foldl_cons, hstep, (ih _).2.1]
        simp [hh]
        omega
      · rw [List.foldl_cons, hstep, (ih _).2.2]
        simp

theorem hashPhase_char (hashFn : String → Option String)
    (sm : List (Nat × List String)) :
    ∀ (sizeOrder : List Nat) (st : HashState),
      (sizeOrder.foldl (hashBucket hashFn sm) st).hashMap =
        buildAL (pairsOf hashFn sm sizeOrder) st.hashMap
      ∧ (sizeOrder.foldl (hashBucket hashFn sm) st).totalFiles =
        st.totalFiles + (pairsOf hashFn sm sizeOrder).length
      ∧ (sizeOrder.foldl (hashBucket hashFn sm) st).hashed =
        st.hashed ++ hashedOf sm sizeOrder := by
  intro sizeOrder
  induction sizeOrder with
  | nil => intro st; exact ⟨rfl, by simp [pairsOf], by simp [hashedOf]⟩
  | cons s sizeOrder ih =>
    intro st
    rw [List.foldl_cons]
    have hps : pairsOf hashFn sm (s :: sizeOrder) =
        bucketPairsO hashFn (lookupAL sm s) ++ pairsOf hashFn sm sizeOrder := by
      simp [pairsOf]
    have hhs : hashedOf sm (s :: sizeOrder) =
        bucketHashedO (lookupAL sm s) ++ hashedOf sm sizeOrder := by
      simp [hashedOf]
    cases hl : lookupAL sm s with
    | none =>
      have hb : hashBucket hashFn sm st s = st := by
        simp [hashBucket, hl]
      rw [hb, hps, hhs, hl]
      simp only [bucketPairsO, bucketHashedO]
      simpa using ih st
    | some files =>
      by_cases hlen : files.length < 2
      · have hb : hashBucket hashFn sm st s = st := by
          simp [hashBucket, hl, hlen]
        rw [hb, hps, hhs, hl]
        simp only [bucketPairsO, bucketHashedO, if_pos hlen]
        simpa using ih st
      · have hb : hashBucket hashFn sm st s =
            files.foldl (hashFile hashFn) st := by
          simp [hashBucket, hl, hlen]
        rw [hb, hps, hhs, hl]
        simp only [bucketPairsO, bucketHashedO, if_neg hlen]
        have hf := hashFold_char hashFn files st
        have hi := ih (files.foldl (hashFile hashFn) st)
        refine ⟨?_, ?_, ?_⟩
        · rw [hi.1, hf.1]
          simp [buildAL]
        · rw [hi.2.1, hf.2.1]
          simp
          omega
        · rw [hi.2.2, hf.2.2]
          simp

/-! ### The deletion phase, characterised -/

/-- The report a qualifying digest group produces: none for groups with
fewer than two members, otherwise keeper = sorted head, duplicates =
sorted tail. -/
def groupRep (stat : String → FileMeta) (d : String)
    (files : List String) : Option GroupReport :=
  if files.length < 2 then none
  else
    match goSortSlice (lessTotal stat) files with
    | [] => none
    | keeper :: dups => some ⟨d, keeper, dups⟩

/-- All group reports of a run, in hashMap iteration order. -/
def groupsOf (stat : String → FileMeta) (hm : List (String × List String))
    (hashOrder : List String) : List GroupReport :=
  hashOrder.filterMap (fun d =>
    match lookupAL hm d with
    | none => none
    | some files => groupRep stat d files)

/-- All duplicates of a run, in processing order. -/
def allDups (stat : String → FileMeta) (hm : List (String × List String))
    (hashOrder : List String) : List String :=
  (groupsOf stat hm hashOrder).flatMap GroupReport.dups

/-- The duplicates the interactive loop deletes: those whose prompt (the
k-th read, counting from the given offset) is answered "y" or "Y". -/
def yesFilter (resp : Nat → String) : Nat → List String → List String
  | _, [] => []
  | k, p :: rest =>
    if resp k = "y" ∨ resp k = "Y" then p :: yesFilter resp (k + 1) rest
    else yesFilter resp (k + 1) rest

theorem processDup_stats (env : Env) (cfg : RunConfig) (st : DelState)
    (dup : String) :
    (processDup env cfg st dup).reports = st.reports
    ∧ (processDup env cfg st dup).dupCount = st.dupCount + 1
    ∧ (processDup env cfg st dup).saved = st.saved + (env.stat dup).size := by
  simp only [processDup]
  split
  · split
    · split <;> exact ⟨rfl, rfl, rfl⟩
    · split <;> exact ⟨rfl, rfl, rfl⟩
  · exact ⟨rfl, rfl, rfl⟩

theorem foldDups_stats (env : Env) (cfg : RunConfig) :
    ∀ (dups : List String) (st : DelState),
      (dups.foldl (processDup env cfg) st).reports = st.reports
      ∧ (dups.foldl (processDup env cfg) st).dupCount =
        st.dupCount + dups.length
      ∧ (dups.foldl (processDup env cfg) st).saved =
        st.saved + (dups.map (fun p => (env.stat p).size)).sum := by
  intro dups
  induction dups with
  | nil => intro st; exact ⟨rfl, rfl, by simp⟩
  | cons p dups ih =>
    intro st
    have hp := processDup_stats env cfg st p
    have hi := ih (processDup env cfg st p)
    refine ⟨?_, ?_, ?_⟩
    · rw [List.foldl_cons, hi.1, hp.1]
    · rw [List.foldl_cons, hi.2.1, hp.2.1]
      simp
      omega
    · rw [List.foldl_cons, hi.2.2, hp.2.2]
      simp
      omega

theorem processGroup_stats (env : Env) (cfg : RunConfig) (st : DelState)
    (d : String) (files : List String) :
    (processGroup env cfg st d files).reports =
      st.reports ++ (groupRep env.stat d files).toList
    ∧ (processGroup env cfg st d files).dupCount =
      st.dupCount + ((groupRep env.stat d files).toList.flatMap
        GroupReport.dups).length
    ∧ (processGroup env cfg st d files).saved =
      st.saved + (((groupRep env.stat d files).toList.flatMap
        GroupReport.dups).map (fun p => (env.stat p).size)).sum := by
  unfold processGroup groupRep
  split
  · simp
  · split
    · simp
    · next keeper dups heq =>
      have hf := foldDups_stats env cfg dups
        { st with reports := st.reports ++ [⟨d, keeper, dups⟩] }
      refine ⟨?_, ?_, ?_⟩
      · rw [hf.1]
        simp
      · rw [hf.2.1]
        simp
      · rw [hf.2.2]
        simp

theorem delPhase_stats (env : Env) (cfg : RunConfig)
    (hm : List (String × List String)) :
    ∀ (hashOrder : List String) (st : DelState),
      ((hashOrder.foldl
        (fun st d =>
          match lookupAL hm d with
          | none => st
          | some files => processGroup env cfg st d files) st).reports =
        st.reports ++ groupsOf env.stat hm hashOrder)
      ∧ ((hashOrder.foldl
        (fun st d =>
          match lookupAL hm d with
          | none => st
          | some files => processGroup env cfg st d files) st).dupCount =
        st.dupCount + (allDups env.stat hm hashOrder).length)
      ∧ ((hashOrder.foldl
        (fun st d =>
          match lookupAL hm d with
          | none => st
          | some files => processGroup env cfg st d files) st).saved =
        st.saved + ((allDups env.stat hm hashOrder).map
          (fun p => (env.stat p).size)).sum) := by
  intro hashOrder
  induction hashOrder with
  | nil =>
    intro st
    exact ⟨by simp [groupsOf], by simp [allDups, groupsOf],
      by simp [allDups, groupsOf]⟩
  | cons d hashOrder ih =>
    intro st
    rw [List.foldl_cons]
    have hgo : groupsOf env.stat hm (d :: hashOrder) =
        (match lookupAL hm d with
          | none => none
          | some files => groupRep env.stat d files).toList ++
          groupsOf env.stat hm hashOrder := by
      unfold groupsOf
      rw [List.filterMap_cons]
      cases lookupAL hm d with
      | none => simp
      | some files => cases hgr : groupRep env.stat d files <;> simp [hgr]
    have had : allDups env.stat hm (d :: hashOrder) =
        ((match lookupAL hm d with
          | none => none
          | some files => groupRep env.stat d files).toList.flatMap
            GroupReport.dups) ++ allDups env.stat hm hashOrder := by
      rw [allDups, hgo]
      simp [allDups]
    cases hl : lookupAL hm d with
    | none =>
      rw [hgo, had, hl]
      simpa using ih st
    | some files =>
      rw [hgo, had, hl]
      have hg := processGroup_stats env cfg st d files
      have hi := ih (processGroup env cfg st d files)
      refine ⟨?_, ?_, ?_⟩
      · rw [hi.1, hg.1]
        simp
      · rw [hi.2.1, hg.2.1]
        simp
        omega
      · rw [hi.2.2, hg.2.2]
        simp
        omega

/-- The hashMap a run builds. -/
def hmOf (env : Env) (sizeOrder : List Nat) : List (String × List String) :=
  buildAL (pairsOf env.hashFn (buildSizeMap env.walk) sizeOrder) []

theorem dedupeRun_char (env : Env) (cfg : RunConfig) (so : List Nat)
    (ho : List String) :
    (dedupeRun env cfg so ho).groups = groupsOf env.stat (hmOf env so) ho
    ∧ (dedupeRun env cfg so ho).duplicateCount =
      (allDups env.stat (hmOf env so) ho).length
    ∧ (dedupeRun env cfg so ho).totalSaved =
      ((allDups env.stat (hmOf env so) ho).map
        (fun p => (env.stat p).size)).sum
    ∧ (dedupeRun env cfg so ho).totalFiles =
      (pairsOf env.hashFn (buildSizeMap env.walk) so).length
    ∧ (dedupeRun env cfg so ho).hashed =
      hashedOf (buildSizeMap env.walk) so := by
  have hh := hashPhase_char env.hashFn (buildSizeMap env.walk) so ⟨[], 0, []⟩
  have hd := delPhase_stats env cfg
    (hashPhase env.hashFn (buildSizeMap env.walk) so).hashMap ho
    ⟨[], 0, [], [], [], 0, 0⟩
  have hhm : (hashPhase env.hashFn (buildSizeMap env.walk) so).hashMap =
      hmOf env so := hh.1
  refine ⟨?_, ?_, ?_, ?_, ?_⟩
  · show (delPhase env cfg
      (hashPhase env.hashFn (buildSizeMap env.walk) so).hashMap ho).reports = _
    unfold delPhase
    rw [hd.1, hhm]
    simp
  · show (delPhase env cfg
      (hashPhase env.hashFn (buildSizeMap env.walk) so).hashMap ho).dupCount = _
    unfold delPhase
    rw [hd.2.1, hhm]
    simp
  · show (delPhase env cfg
      (hashPhase env.hashFn (buildSizeMap env.walk) so).hashMap ho).saved = _
    unfold delPhase
    rw [hd.2.2, hhm]
    simp
  · show (hashPhase env.hashFn (buildSizeMap env.walk) so).totalFiles = _
    unfold hashPhase
    rw [hh.2.1]
    simp
  · show (hashPhase env.hashFn (buildSizeMap env.walk) so).hashed = _
    unfold hashPhase
    rw [hh.2.2]
    simp

theorem mem_bucketPairsO (hashFn : String → Option String)
    (o : Option (List String)) (pr : String × String)
    (h : pr ∈ bucketPairsO hashFn o) :
    hashFn pr.2 = some pr.1 ∧ pr.2 ∈ bucketHashedO o := by
  cases o with
  | none => simp [bucketPairsO] at h
  | some files =>
    rw [bucketPairsO] at h
    by_cases hlen : files.length < 2
    · rw [if_pos hlen] at h
      simp at h
    · rw [if_neg hlen] at h
      rw [List.mem_filterMap] at h
      obtain ⟨p, hp, hmap⟩ := h
      cases hf : hashFn p with
      | none => rw [hf] at hmap; simp at hmap
      | some d =>
        rw [hf] at hmap
        rw [show Option.map (fun d => (d, p)) (some d) = some (d, p) from rfl]
          at hmap
        have hmap2 := Option.some.inj hmap
        rw [← hmap2]
        refine ⟨hf, ?_⟩
        rw [bucketHashedO, if_neg hlen]
        exact hp

theorem pairsOf_sound (hashFn : String → Option String)
    (sm : List (Nat × List String)) (so : List Nat) :
    ∀ pr ∈ pairsOf hashFn sm so, hashFn pr.2 = some pr.1 := by
  intro pr hpr
  unfold pairsOf at hpr
  rw [List.mem_flatMap] at hpr
  obtain ⟨s, _, hpr⟩ := hpr
  exact (mem_bucketPairsO hashFn _ pr hpr).1

theorem pairsOf_sub_hashed (hashFn : String → Option String)
    (sm : List (Nat × List String)) (so : List Nat) :
    ∀ pr ∈ pairsOf hashFn sm so, pr.2 ∈ hashedOf sm so := by
  intro pr hpr
  unfold pairsOf at hpr
  rw [List.mem_flatMap] at hpr
  obtain ⟨s, hs, hpr⟩ := hpr
  unfold hashedOf
  rw [List.mem_flatMap]
  exact ⟨s, hs, (mem_bucketPairsO hashFn _ pr hpr).2⟩

theorem groupRep_some (stat : String → FileMeta) (d : String)
    (files : List String) (g : GroupReport)
    (h : groupRep stat d files = some g) :
    g.digest = d ∧ g.keeper :: g.dups = goSortSlice (lessTotal stat) files
      ∧ 2 ≤ files.length := by
  unfold groupRep at h
  split at h
  · cases h
  · next hlen =>
    split at h
    · cases h
    · next keeper dups heq =>
      cases h
      exact ⟨rfl, heq.symm, by omega⟩

theorem mem_groupsOf (stat : String → FileMeta)
    (hm : List (String × List String)) (ho : List String) (g : GroupReport)
    (h : g ∈ groupsOf stat hm ho) :
    ∃ d ∈ ho, ∃ files, lookupAL hm d = some files ∧
      groupRep stat d files = some g := by
  unfold groupsOf at h
  rw [List.mem_filterMap] at h
  obtain ⟨d, hd, hg⟩ := h
  cases hl : lookupAL hm d with
  | none => rw [hl] at hg; cases hg
  | some files =>
    rw [hl] at hg
    exact ⟨d, hd, files, hl, hg⟩

theorem member_of_group (env : Env) (so : List Nat) (ho : List String)
    (g : GroupReport) (hg : g ∈ groupsOf env.stat (hmOf env so) ho)
    (q : String) (hq : q ∈ g.keeper :: g.dups) :
    ∃ d, (d, q) ∈ pairsOf env.hashFn (buildSizeMap env.walk) so ∧
      g.digest = d := by
  obtain ⟨d, _, files, hl, hrep⟩ := mem_groupsOf _ _ _ g hg
  obtain ⟨hdig, hsort, _⟩ := groupRep_some _ _ _ _ hrep
  have hperm : (goSortSlice (lessTotal env.stat) files).Perm files :=
    goSortSlice_perm _ _
  have hqf : q ∈ files := by
    rw [hsort] at hq
    exact hperm.mem_iff.mp hq
  have hv : files = valsOf (hmOf env so) d := by
    have := lookupAL_eq (hmOf env so) d
    rw [hl] at this
    by_cases hk : d ∈ keysAL (hmOf env so)
    · rw [if_pos hk] at this
      exact Option.some.inj this
    · rw [if_neg hk] at this
      cases this
  have hvv : valsOf (hmOf env so) d =
      ((pairsOf env.hashFn (buildSizeMap env.walk) so).filter
        (fun pr => pr.1 = d)).map Prod.snd := by
    unfold hmOf
    rw [valsOf_buildAL]
    simp [valsOf, lookupAL]
  rw [hv, hvv] at hqf
  rw [List.mem_map] at hqf
  obtain ⟨pr, hpr, hpr2⟩ := hqf
  rw [List.mem_filter] at hpr
  have hd : pr.1 = d := by simpa using hpr.2
  exact ⟨d, by rw [← hd, ← hpr2]; exact hpr.1, hdig⟩

/-- C9: every duplicate is reported and counted whatever the mode, the
confirmation responses and the os.Remove outcomes: the group reports, the
duplicates-found tally and the reclaimable-bytes total are the same for
any two configurations and any responses/removal outcomes, the tally is
exactly the number of reported duplicate lines, and the total is exactly
the sum of their stat sizes. -/
theorem C9_stats_mode_independent (env : Env) (cfg cfg' : RunConfig)
    (resp' : Nat → String) (removeOk' : String → Bool)
    (so : List Nat) (ho : List String) :
    ((dedupeRun env cfg so ho).groups =
      (dedupeRun { env with resp := resp', removeOk := removeOk' } cfg'
        so ho).groups
    ∧ (dedupeRun env cfg so ho).duplicateCount =
      (dedupeRun { env with resp := resp', removeOk := removeOk' } cfg'
        so ho).duplicateCount
    ∧ (dedupeRun env cfg so ho).totalSaved =
      (dedupeRun { env with resp := resp', removeOk := removeOk' } cfg'
        so ho).totalSaved)
    ∧ (dedupeRun env cfg so ho).duplicateCount =
      ((dedupeRun env cfg so ho).groups.flatMap GroupReport.dups).length
    ∧ (dedupeRun env cfg so ho).totalSaved =
      (((dedupeRun env cfg so ho).groups.flatMap GroupReport.dups).map
        (fun p => (env.stat p).size)).sum := by
  have h1 := dedupeRun_char env cfg so ho
  have h2 := dedupeRun_char { env with resp := resp', removeOk := removeOk' }
    cfg' so ho
  refine ⟨⟨?_, ?_, ?_⟩, ?_, ?_⟩
  · rw [h1.1, h2.1]
    rfl
  · rw [h1.2.1, h2.2.1]
    rfl
  · rw [h1.2.2.1, h2.2.2.1]
    rfl
  · rw [h1.2.1, h1.1]
    rfl
  · rw [h1.2.2.1, h1.1]
    rfl

theorem lookupAL_some_valsOf [DecidableEq κ] (m : List (κ × List ν)) (k : κ)
    (vs : List ν) (h : lookupAL m k = some vs) : vs = valsOf m k := by
  unfold valsOf
  rw [h]
  rfl

theorem filterMapPair_length (hashFn : String → Option String) :
    ∀ (files : List String),
      (files.filterMap (fun p => (hashFn p).map (fun d => (d, p)))).length =
        (files.filter (fun q => (hashFn q).isSome)).length := by
  intro files
  induction files with
  | nil => rfl
  | cons p files ih =>
    rw [List.filterMap_cons, List.filter_cons]
    cases hf : hashFn p with
    | none => simp [hf, ih]
    | some d => simp [hf, ih]

theorem bucketPairsO_length (hashFn : String → Option String)
    (o : Option (List String)) :
    (bucketPairsO hashFn o).length =
      ((bucketHashedO o).filter (fun q => (hashFn q).isSome)).length := by
  cases o with
  | none => rfl
  | some files =>
    rw [bucketPairsO, bucketHashedO]
    by_cases hlen : files.length < 2
    · rw [if_pos hlen, if_pos hlen]
      rfl
    · rw [if_neg hlen, if_neg hlen]
      exact filterMapPair_length hashFn files

theorem pairsOf_length (hashFn : String → Option String)
    (sm : List (Nat × List String)) :
    ∀ (so : List Nat),
      (pairsOf hashFn sm so).length =
        ((hashedOf sm so).filter (fun q => (hashFn q).isSome)).length := by
  intro so
  induction so with
  | nil => rfl
  | cons s so ih =>
    have e1 : pairsOf hashFn sm (s :: so) =
        bucketPairsO hashFn (lookupAL sm s) ++ pairsOf hashFn sm so := by
      simp [pairsOf]
    have e2 : hashedOf sm (s :: so) =
        bucketHashedO (lookupAL sm s) ++ hashedOf sm so := by
      simp [hashedOf]
    rw [e1, e2, List.filter_append, List.length_append, List.length_append,
      ih, bucketPairsO_length]

/-- C7: a file whose digest computation fails is dropped: it is never the
keeper nor a duplicate of any reported group, and the total-files-processed
counter counts exactly the hashed files whose digest computation
succeeded. -/
theorem C7_hash_failure_excluded (env : Env) (cfg : RunConfig)
    (so : List Nat) (ho : List String) (p : String)
    (hp : env.hashFn p = none) :
    (∀ g ∈ (dedupeRun env cfg so ho).groups, p ≠ g.keeper ∧ p ∉ g.dups)
    ∧ (dedupeRun env cfg so ho).totalFiles =
      ((dedupeRun env cfg so ho).hashed.filter
        (fun q => (env.hashFn q).isSome)).length := by
  have hc := dedupeRun_char env cfg so ho
  constructor
  · intro g hg
    rw [hc.1] at hg
    have hmem : ∀ q, q ∈ g.keeper :: g.dups → q ≠ p := by
      intro q hq hqp
      obtain ⟨d, hpair, _⟩ := member_of_group env so ho g hg q hq
      have hs := pairsOf_sound env.hashFn _ so _ hpair
      rw [hqp] at hs
      rw [hp] at hs
      cases hs
    constructor
    · intro hk
      exact hmem g.keeper (by simp) hk.symm
    · intro hd
      exact hmem p (by simp [hd]) rfl
  · rw [hc.2.2.2.1, hc.2.2.2.2]
    exact pairsOf_length env.hashFn (buildSizeMap env.walk) so

/-- The environment of the C7 witness: two same-size files, the first of
which fails to hash. -/
def envC7 : Env :=
  ⟨[WalkEntry.entry "/d/x1" ⟨4, 1, false, false⟩,
    WalkEntry.entry "/d/x2" ⟨4, 2, false, false⟩],
   fun p => if p = "/d/x1" then none else some "dd",
   fun _ => ⟨4, 0, false, false⟩, fun _ => "", fun _ => true⟩

/-- C7 witness: the failing file of a concrete run is excluded and not
counted. -/
theorem C7_hash_failure_excluded_witness :
    envC7.hashFn "/d/x1" = none ∧
    ((∀ g ∈ (dedupeRun envC7 ⟨false, false⟩ [4] ["dd"]).groups,
        "/d/x1" ≠ g.keeper ∧ "/d/x1" ∉ g.dups)
      ∧ (dedupeRun envC7 ⟨false, false⟩ [4] ["dd"]).totalFiles =
        ((dedupeRun envC7 ⟨false, false⟩ [4] ["dd"]).hashed.filter
          (fun q => (envC7.hashFn q).isSome)).length) :=
  ⟨rfl, C7_hash_failure_excluded envC7 ⟨false, false⟩ [4] ["dd"] "/d/x1" rfl⟩

/-- C6: a file in no multi-member size bucket — a zero-byte file (excluded
at scan time) or a file whose size no other scanned file shares — is never
handed to the hash function and never appears in any reported group. -/
theorem C6_unique_size_never_hashed (env : Env) (cfg : RunConfig)
    (so : List Nat) (ho : List String) (p : String)
    (h : ∀ r ∈ validRecs env.walk, r.2 = p →
      ((validRecs env.walk).filter (fun q => q.1 = r.1)).length ≤ 1) :
    p ∉ (dedupeRun env cfg so ho).hashed
    ∧ ∀ g ∈ (dedupeRun env cfg so ho).groups, p ≠ g.keeper ∧ p ∉ g.dups := by
  have hc := dedupeRun_char env cfg so ho
  have hnp : p ∉ hashedOf (buildSizeMap env.walk) so := by
    intro hmem
    unfold hashedOf at hmem
    rw [List.mem_flatMap] at hmem
    obtain ⟨s, _, hmem⟩ := hmem
    cases hl : lookupAL (buildSizeMap env.walk) s with
    | none =>
      rw [hl] at hmem
      simp [bucketHashedO] at hmem
    | some files =>
      rw [hl] at hmem
      rw [bucketHashedO] at hmem
      by_cases hlen : files.length < 2
      · rw [if_pos hlen] at hmem
        simp at hmem
      · rw [if_neg hlen] at hmem
        have hval : files = valsOf (buildSizeMap env.walk) s :=
          lookupAL_some_valsOf _ _ _ hl
        have hbv : valsOf (buildSizeMap env.walk) s = bucket env.walk s :=
          valsOf_buildSizeMap env.walk s
        rw [hval, hbv] at hmem
        rw [hval, hbv] at hlen
        unfold bucket at hmem hlen
        rw [List.mem_map] at hmem
        obtain ⟨r, hr, hr2⟩ := hmem
        rw [List.mem_filter] at hr
        have hrs : r.1 = s := by simpa using hr.2
        have hle := h r hr.1 hr2
        rw [hrs] at hle
        rw [List.length_map] at hlen
        have : ((validRecs env.walk).filter (fun q => q.1 = s)).length < 2 := by
          omega
      -- the filters in hle and hlen use propositionally equal predicates
        have heq : ((validRecs env.walk).filter (fun q => q.1 = s)) =
            ((validRecs env.walk).filter (fun r => r.1 = s)) := rfl
        omega
  refine ⟨?_, ?_⟩
  · rw [hc.2.2.2.2]
    exact hnp
  · intro g hg
    rw [hc.1] at hg
    have hmem : ∀ q, q ∈ g.keeper :: g.dups → q ≠ p := by
      intro q hq hqp
      obtain ⟨d, hpair, _⟩ := member_of_group env so ho g hg q hq
      have hsub := pairsOf_sub_hashed env.hashFn _ so _ hpair
      rw [hqp] at hsub
      exact hnp hsub
    constructor
    · intro hk
      exact hmem g.keeper (by simp) hk.symm
    · intro hd
      exact hmem p (by simp [hd]) rfl

/-- The environment of the C6 witness: two zero-byte files and one file of
a unique size. -/
def envC6 : Env :=
  ⟨[WalkEntry.entry "/d/z1" ⟨0, 1, false, false⟩,
    WalkEntry.entry "/d/z2" ⟨0, 2, false, false⟩,
    WalkEntry.entry "/d/u" ⟨7, 3, false, false⟩],
   fun _ => some "dd", fun _ => ⟨7, 0, false, false⟩,
   fun _ => "", fun _ => true⟩

/-- C6 witness: the zero-byte file of a concrete run is never hashed and
appears in no group (and the same theorem applies to the unique-size
file). -/
theorem C6_unique_size_never_hashed_witness :
    (∀ r ∈ validRecs envC6.walk, r.2 = "/d/z1" →
      ((validRecs envC6.walk).filter (fun q => q.1 = r.1)).length ≤ 1)
    ∧ ("/d/z1" ∉ (dedupeRun envC6 ⟨false, false⟩ [7] []).hashed
      ∧ ∀ g ∈ (dedupeRun envC6 ⟨false, false⟩ [7] []).groups,
        "/d/z1" ≠ g.keeper ∧ "/d/z1" ∉ g.dups) :=
  ⟨by decide,
    C6_unique_size_never_hashed envC6 ⟨false, false⟩ [7] [] "/d/z1" (by decide)⟩

/-! ### Deletion semantics per mode (claims C8, C2) -/

theorem processDup_plain (env : Env) (st : DelState) (dup : String) :
    processDup env ⟨false, false⟩ st dup =
      { st with dupCount := st.dupCount + 1,
                saved := st.saved + (env.stat dup).size,
                deleted := st.deleted ++ [dup],
                removed := st.removed ++
                  (if env.removeOk dup then [dup] else []) } := by
  simp [processDup]

theorem processDup_confirm (env : Env) (st : DelState) (dup : String) :
    processDup env ⟨false, true⟩ st dup =
      (if env.resp st.promptIdx = "y" ∨ env.resp st.promptIdx = "Y" then
        { st with dupCount := st.dupCount + 1,
                  saved := st.saved + (env.stat dup).size,
                  promptIdx := st.promptIdx + 1,
                  prompts := st.prompts ++ [dup],
                  deleted := st.deleted ++ [dup],
                  removed := st.removed ++
                    (if env.removeOk dup then [dup] else []) }
      else
        { st with dupCount := st.dupCount + 1,
                  saved := st.saved + (env.stat dup).size,
                  promptIdx := st.promptIdx + 1,
                  prompts := st.prompts ++ [dup] }) := by
  by_cases hy : env.resp st.promptIdx = "y" ∨ env.resp st.promptIdx = "Y"
  · have hcond : ¬ (env.resp st.promptIdx ≠ "y" ∧
        env.resp st.promptIdx ≠ "Y") := by tauto
    simp [processDup, hcond, hy]
  · have hcond : env.resp st.promptIdx ≠ "y" ∧
        env.resp st.promptIdx ≠ "Y" := by tauto
    simp [processDup, hcond, hy]

theorem yesFilter_append (resp : Nat → String) :
    ∀ (xs ys : List String) (k : Nat),
      yesFilter resp k (xs ++ ys) =
        yesFilter resp k xs ++ yesFilter resp (k + xs.length) ys := by
  intro xs
  induction xs with
  | nil => intro ys k; simp [yesFilter]
  | cons x xs ih =>
    intro ys k
    rw [List.cons_append, yesFilter, yesFilter]
    split
    · rw [ih ys (k + 1)]
      simp
      ring_nf
    · rw [ih ys (k + 1)]
      simp
      ring_nf

theorem foldDups_confirm (env : Env) :
    ∀ (dups : List String) (st : DelState),
      (dups.foldl (processDup env ⟨false, true⟩) st).prompts =
        st.prompts ++ dups
      ∧ (dups.foldl (processDup env ⟨false, true⟩) st).promptIdx =
        st.promptIdx + dups.length
      ∧ (dups.foldl (processDup env ⟨false, true⟩) st).deleted =
        st.deleted ++ yesFilter env.resp st.promptIdx dups
      ∧ (dups.foldl (processDup env ⟨false, true⟩) st).removed =
        st.removed ++
          (yesFilter env.resp st.promptIdx dups).filter env.removeOk := by
  intro dups
  induction dups with
  | nil => intro st; refine ⟨by simp, by simp, ?_, ?_⟩ <;> simp [yesFilter]
  | cons d dups ih =>
    intro st
    rw [List.foldl_cons, processDup_confirm]
    by_cases hy : env.resp st.promptIdx = "y" ∨ env.resp st.promptIdx = "Y"
    · rw [if_pos hy]
      have hi := ih
        { st with
          dupCount := st.dupCount + 1,
          saved := st.saved + (env.stat d).size,
          promptIdx := st.promptIdx + 1,
          prompts := st.prompts ++ [d],
          deleted := st.deleted ++ [d],
          removed := st.removed ++ (if env.removeOk d then [d] else []) }
      refine ⟨?_, ?_, ?_, ?_⟩
      · rw [hi.1]
        simp
      · rw [hi.2.1]
        simp
        omega
      · rw [hi.2.2.1]
        rw [yesFilter, if_pos hy]
        simp
      · rw [hi.2.2.2]
        rw [yesFilter, if_pos hy]
        rw [List.filter_cons]
        cases hok : env.removeOk d <;> simp [hok]
    · rw [if_neg hy]
      have hi := ih
        { st with
          dupCount := st.dupCount + 1,
          saved := st.saved + (env.stat d).size,
          promptIdx := st.promptIdx + 1,
          prompts := st.prompts ++ [d] }
      refine ⟨?_, ?_, ?_, ?_⟩
      · rw [hi.1]
        simp
      · rw [hi.2.1]
        simp
        omega
      · rw [hi.2.2.1]
        rw [yesFilter, if_neg hy]
      · rw [hi.2.2.2]
        rw [yesFilter, if_neg hy]

theorem foldDups_plain (env : Env) :
    ∀ (dups : List String) (st : DelState),
      (dups.foldl (processDup env ⟨false, false⟩) st).prompts = st.prompts
      ∧ (dups.foldl (processDup env ⟨false, false⟩) st).promptIdx =
        st.promptIdx
      ∧ (dups.foldl (processDup env ⟨false, false⟩) st).deleted =
        st.deleted ++ dups
      ∧ (dups.foldl (processDup env ⟨false, false⟩) st).removed =
        st.removed ++ dups.filter env.removeOk := by
  intro dups
  induction dups with
  | nil => intro st; exact ⟨rfl, rfl, by simp, by simp⟩
  | cons d dups ih =>
    intro st
    rw [List.foldl_cons, processDup_plain]
    have hi := ih
      { st with
        dupCount := st.dupCount + 1,
        saved := st.saved + (env.stat d).size,
        deleted := st.deleted ++ [d],
        removed := st.removed ++ (if env.removeOk d then [d] else []) }
    refine ⟨?_, ?_, ?_, ?_⟩
    · rw [hi.1]
    · rw [hi.2.1]
    · rw [hi.2.2.1]
      simp
    · rw [hi.2.2.2]
      rw [List.filter_cons]
      cases hok : env.removeOk d <;> simp [hok]

theorem processGroup_confirm (env : Env) (st : DelState) (d : String)
    (files : List String) :
    (processGroup env ⟨false, true⟩ st d files).prompts =
      st.prompts ++
        (groupRep env.stat d files).toList.flatMap GroupReport.dups
    ∧ (processGroup env ⟨false, true⟩ st d files).promptIdx =
      st.promptIdx +
        ((groupRep env.stat d files).toList.flatMap GroupReport.dups).length
    ∧ (processGroup env ⟨false, true⟩ st d files).deleted =
      st.deleted ++ yesFilter env.resp st.promptIdx
        ((groupRep env.stat d files).toList.flatMap GroupReport.dups)
    ∧ (processGroup env ⟨false, true⟩ st d files).removed =
      st.removed ++ (yesFilter env.resp st.promptIdx
        ((groupRep env.stat d files).toList.flatMap
          GroupReport.dups)).filter env.removeOk := by
  unfold processGroup groupRep
  split
  · simp [yesFilter]
  · split
    · simp [yesFilter]
    · next keeper dups heq =>
      have hf := foldDups_confirm env dups
        { st with reports := st.reports ++ [⟨d, keeper, dups⟩] }
      refine ⟨?_, ?_, ?_, ?_⟩
      · rw [hf.1]
        simp
      · rw [hf.2.1]
        simp
      · rw [hf.2.2.1]
        simp
      · rw [hf.2.2.2]
        simp

theorem delPhase_confirm (env : Env) (hm : List (String × List String)) :
    ∀ (hashOrder : List String) (st : DelState),
      ((hashOrder.foldl
        (fun st d =>
          match lookupAL hm d with
          | none => st
          | some files => processGroup env ⟨false, true⟩ st d files)
        st).prompts =
        st.prompts ++ allDups env.stat hm hashOrder)
      ∧ ((hashOrder.foldl
        (fun st d =>
          match lookupAL hm d with
          | none => st
          | some files => processGroup env ⟨false, true⟩ st d files)
        st).promptIdx =
        st.promptIdx + (allDups env.stat hm hashOrder).length)
      ∧ ((hashOrder.foldl
        (fun st d =>
          match lookupAL hm d with
          | none => st
          | some files => processGroup env ⟨false, true⟩ st d files)
        st).deleted =
        st.deleted ++
          yesFilter env.resp st.promptIdx (allDups env.stat hm hashOrder))
      ∧ ((hashOrder.foldl
        (fun st d =>
          match lookupAL hm d with
          | none => st
          | some files => processGroup env ⟨false, true⟩ st d files)
        st).removed =
        st.removed ++
          (yesFilter env.resp st.promptIdx
            (allDups env.stat hm hashOrder)).filter env.removeOk) := by
  intro hashOrder
  induction hashOrder with
  | nil =>
    intro st
    exact ⟨by simp [allDups, groupsOf], by simp [allDups, groupsOf],
      by simp [allDups, groupsOf, yesFilter],
      by simp [allDups, groupsOf, yesFilter]⟩
  | cons d hashOrder ih =>
    intro st
    rw [List.foldl_cons]
    have hgo : groupsOf env.stat hm (d :: hashOrder) =
        (match lookupAL hm d with
          | none => none
          | some files => groupRep env.stat d files).toList ++
          groupsOf env.stat hm hashOrder := by
      unfold groupsOf
      rw [List.filterMap_cons]
      cases lookupAL hm d with
      | none => simp
      | some files => cases hgr : groupRep env.stat d files <;> simp [hgr]
    have had : allDups env.stat hm (d :: hashOrder) =
        ((match lookupAL hm d with
          | none => none
          | some files => groupRep env.stat d files).toList.flatMap
            GroupReport.dups) ++ allDups env.stat hm hashOrder := by
      rw [allDups, hgo]
      simp [allDups]
    cases hl : lookupAL hm d with
    | none =>
      rw [had, hl]
      simpa using ih st
    | some files =>
      rw [had, hl]
      have hg := processGroup_confirm env st d files
      have hi := ih (processGroup env ⟨false, true⟩ st d files)
      refine ⟨?_, ?_, ?_, ?_⟩
      · rw [hi.1, hg.1]
        simp
      · rw [hi.2.1, hg.2.1]
        simp
        omega
      · rw [hi.2.2.1, hg.2.2.1, hg.2.1]
        rw [yesFilter_append]
        simp
      · rw [hi.2.2.2, hg.2.2.2, hg.2.1]
        rw [yesFilter_append, List.filter_append]
        simp

/-- C8: with `--confirm` set and `--dry-run` not set, every duplicate of
every qualifying group is prompted for (in processing order), os.Remove is
invoked exactly on the duplicates whose read response is the literal
string "y" or "Y" (any other response, the empty string included, skips
the file), a successful removal additionally requires the environment to
permit it, and the group reports and the two statistics counters are the
same as in any other mode — a skipped file stays reported and counted. -/
theorem C8_confirm_prompt_gates_deletion (env : Env) (so : List Nat)
    (ho : List String) :
    (dedupeRun env ⟨false, true⟩ so ho).prompts =
      allDups env.stat (hmOf env so) ho
    ∧ (dedupeRun env ⟨false, true⟩ so ho).deleted =
      yesFilter env.resp 0 (allDups env.stat (hmOf env so) ho)
    ∧ (dedupeRun env ⟨false, true⟩ so ho).removed =
      (yesFilter env.resp 0
        (allDups env.stat (hmOf env so) ho)).filter env.removeOk
    ∧ (dedupeRun env ⟨false, true⟩ so ho).groups =
      groupsOf env.stat (hmOf env so) ho
    ∧ (dedupeRun env ⟨false, true⟩ so ho).duplicateCount =
      (allDups env.stat (hmOf env so) ho).length
    ∧ (dedupeRun env ⟨false, true⟩ so ho).totalSaved =
      ((allDups env.stat (hmOf env so) ho).map
        (fun p => (env.stat p).size)).sum := by
  have hc := dedupeRun_char env ⟨false, true⟩ so ho
  have hh := hashPhase_char env.hashFn (buildSizeMap env.walk) so ⟨[], 0, []⟩
  have hhm : (hashPhase env.hashFn (buildSizeMap env.walk) so).hashMap =
      hmOf env so := hh.1
  have hd := delPhase_confirm env
    (hashPhase env.hashFn (buildSizeMap env.walk) so).hashMap ho
    ⟨[], 0, [], [], [], 0, 0⟩
  refine ⟨?_, ?_, ?_, hc.1, hc.2.1, hc.2.2.1⟩
  · show (delPhase env ⟨false, true⟩
      (hashPhase env.hashFn (buildSizeMap env.walk) so).hashMap ho).prompts = _
    unfold delPhase
    rw [hd.1, hhm]
    simp
  · show (delPhase env ⟨false, true⟩
      (hashPhase env.hashFn (buildSizeMap env.walk) so).hashMap ho).deleted = _
    unfold delPhase
    rw [hd.2.2.1, hhm]
    simp
  · show (delPhase env ⟨false, true⟩
      (hashPhase env.hashFn (buildSizeMap env.walk) so).hashMap ho).removed = _
    unfold delPhase
    rw [hd.2.2.2, hhm]
    simp

/-! ### No-rescan runs: group structure and keeper safety (claim C2) -/

theorem processDup_deleted_cases (env : Env) (cfg : RunConfig)
    (st : DelState) (dup : String) :
    (processDup env cfg st dup).deleted = st.deleted ∨
    (processDup env cfg st dup).deleted = st.deleted ++ [dup] := by
  simp only [processDup]
  repeat' split
  all_goals first | exact Or.inl rfl | exact Or.inr rfl

theorem foldDups_deleted_sub (env : Env) (cfg : RunConfig) :
    ∀ (dups : List String) (st : DelState) (q : String),
      q ∈ (dups.foldl (processDup env cfg) st).deleted →
      q ∈ st.deleted ∨ q ∈ dups := by
  intro dups
  induction dups with
  | nil => intro st q h; exact Or.inl h
  | cons d dups ih =>
    intro st q h
    rw [List.foldl_cons] at h
    rcases ih (processDup env cfg st d) q h with h1 | h1
    · rcases processDup_deleted_cases env cfg st d with h2 | h2
      · rw [h2] at h1
        exact Or.inl h1
      · rw [h2] at h1
        rcases List.mem_append.mp h1 with h3 | h3
        · exact Or.inl h3
        · simp at h3
          simp [h3]
    · exact Or.inr (List.mem_cons_of_mem d h1)

theorem processGroup_deleted_sub (env : Env) (cfg : RunConfig)
    (st : DelState) (d : String) (files : List String) (q : String) :
    q ∈ (processGroup env cfg st d files).deleted →
      q ∈ st.deleted ∨
      q ∈ (groupRep env.stat d files).toList.flatMap GroupReport.dups := by
  unfold processGroup groupRep
  split
  · intro h; exact Or.inl h
  · split
    · intro h; exact Or.inl h
    · next keeper dups heq =>
      intro h
      rcases foldDups_deleted_sub env cfg dups
        { st with reports := st.reports ++ [⟨d, keeper, dups⟩] } q h with h1 | h1
      · exact Or.inl h1
      · right
        simpa using h1

theorem delPhase_deleted_sub (env : Env) (cfg : RunConfig)
    (hm : List (String × List String)) :
    ∀ (hashOrder : List String) (st : DelState) (q : String),
      q ∈ (hashOrder.foldl
        (fun st d =>
          match lookupAL hm d with
          | none => st
          | some files => processGroup env cfg st d files) st).deleted →
      q ∈ st.deleted ∨ q ∈ allDups env.stat hm hashOrder := by
  intro hashOrder
  induction hashOrder with
  | nil => intro st q h; exact Or.inl h
  | cons d hashOrder ih =>
    intro st q h
    rw [List.foldl_cons] at h
    have hgo : groupsOf env.stat hm (d :: hashOrder) =
        (match lookupAL hm d with
          | none => none
          | some files => groupRep env.stat d files).toList ++
          groupsOf env.stat hm hashOrder := by
      unfold groupsOf
      rw [List.filterMap_cons]
      cases lookupAL hm d with
      | none => simp
      | some files => cases hgr : groupRep env.stat d files <;> simp [hgr]
    have had : allDups env.stat hm (d :: hashOrder) =
        ((match lookupAL hm d with
          | none => none
          | some files => groupRep env.stat d files).toList.flatMap
            GroupReport.dups) ++ allDups env.stat hm hashOrder := by
      rw [allDups, hgo]
      simp [allDups]
    rw [had]
    cases hl : lookupAL hm d with
    | none =>
      rw [hl] at h
      rcases ih st q h with h1 | h1
      · exact Or.inl h1
      · exact Or.inr (by simpa using h1)
    | some files =>
      rw [hl] at h
      rcases ih (processGroup env cfg st d files) q h with h1 | h1
      · rcases processGroup_deleted_sub env cfg st d files q h1 with h2 | h2
        · exact Or.inl h2
        · exact Or.inr (List.mem_append.mpr (Or.inl h2))
      · exact Or.inr (List.mem_append.mpr (Or.inr h1))

theorem dedupeRun_deleted_sub (env : Env) (cfg : RunConfig)
    (so : List Nat) (ho : List String) (q : String)
    (h : q ∈ (dedupeRun env cfg so ho).deleted) :
    q ∈ allDups env.stat (hmOf env so) ho := by
  have hh := hashPhase_char env.hashFn (buildSizeMap env.walk) so ⟨[], 0, []⟩
  have hhm : (hashPhase env.hashFn (buildSizeMap env.walk) so).hashMap =
      hmOf env so := hh.1
  have hq : q ∈ (delPhase env cfg
      (hashPhase env.hashFn (buildSizeMap env.walk) so).hashMap ho).deleted := h
  unfold delPhase at hq
  rcases delPhase_deleted_sub env cfg _ ho ⟨[], 0, [], [], [], 0, 0⟩ q hq
    with h1 | h1
  · exact absurd h1 (List.not_mem_nil q)
  · rwa [hhm] at h1

theorem flatMap_nodup_of {α β : Type _} (f : α → List β) :
    ∀ (l : List α), l.Nodup → (∀ s ∈ l, (f s).Nodup) →
      (∀ s ∈ l, ∀ t ∈ l, s ≠ t → ∀ p ∈ f s, p ∉ f t) →
      (l.flatMap f).Nodup := by
  intro l
  induction l with
  | nil => intro _ _ _; simp
  | cons a l ih =>
    intro hn hnd hdisj
    rw [List.flatMap_cons]
    have hna : a ∉ l := (List.nodup_cons.mp hn).1
    refine (hnd a (by simp)).append
      (ih (List.nodup_cons.mp hn).2
        (fun s hs => hnd s (by simp [hs]))
        (fun s hs t ht hst => hdisj s (by simp [hs]) t (by simp [ht]) hst)) ?_
    intro p hp hpl
    rw [List.mem_flatMap] at hpl
    obtain ⟨t, ht, hpt⟩ := hpl
    have hat : a ≠ t := by rintro rfl; exact hna ht
    exact hdisj a (by simp) t (by simp [ht]) hat p hp hpt

theorem bucketHashedO_cases (walk : List WalkEntry) (s : Nat) :
    bucketHashedO (lookupAL (buildSizeMap walk) s) = [] ∨
    bucketHashedO (lookupAL (buildSizeMap walk) s) = bucket walk s := by
  cases hl : lookupAL (buildSizeMap walk) s with
  | none => exact Or.inl rfl
  | some files =>
    rw [bucketHashedO]
    by_cases hlen : files.length < 2
    · exact Or.inl (if_pos hlen)
    · right
      rw [if_neg hlen]
      rw [lookupAL_some_valsOf _ _ _ hl, valsOf_buildSizeMap]

theorem bucket_nodup (walk : List WalkEntry)
    (hw : ((validRecs walk).map Prod.snd).Nodup) (s : Nat) :
    (bucket walk s).Nodup := by
  unfold bucket
  exact ((List.filter_sublist _).map Prod.snd).nodup hw

theorem bucket_disjoint (walk : List WalkEntry)
    (hw : ((validRecs walk).map Prod.snd).Nodup) (s t : Nat) (hst : s ≠ t)
    (p : String) (hp : p ∈ bucket walk s) : p ∉ bucket walk t := by
  intro hq
  unfold bucket at hp hq
  rw [List.mem_map] at hp hq
  obtain ⟨r, hr, hr2⟩ := hp
  obtain ⟨r', hr', hr2'⟩ := hq
  rw [List.mem_filter] at hr hr'
  have hrr : r = r' :=
    List.inj_on_of_nodup_map hw hr.1 hr'.1 (hr2.trans hr2'.symm)
  have hs : r.1 = s := by simpa using hr.2
  have ht : r'.1 = t := by simpa using hr'.2
  rw [hrr] at hs
  exact hst (hs.symm.trans ht)

theorem hashedOf_nodup (walk : List WalkEntry) (so : List Nat)
    (hw : ((validRecs walk).map Prod.snd).Nodup) (hso : so.Nodup) :
    (hashedOf (buildSizeMap walk) so).Nodup := by
  unfold hashedOf
  refine flatMap_nodup_of _ so hso ?_ ?_
  · intro s _
    rcases bucketHashedO_cases walk s with h | h
    · rw [h]; exact List.nodup_nil
    · rw [h]; exact bucket_nodup walk hw s
  · intro s _ t _ hst p hp
    rcases bucketHashedO_cases walk s with h | h
    · rw [h] at hp; exact absurd hp (List.not_mem_nil p)
    · rw [h] at hp
      rcases bucketHashedO_cases walk t with h' | h'
      · rw [h']; exact List.not_mem_nil p
      · rw [h']; exact bucket_disjoint walk hw s t hst p hp

theorem filterMapPair_map_snd (hashFn : String → Option String) :
    ∀ (files : List String),
      ((files.filterMap
        (fun p => (hashFn p).map (fun d => (d, p)))).map Prod.snd) =
        files.filter (fun q => (hashFn q).isSome) := by
  intro files
  induction files with
  | nil => rfl
  | cons p files ih =>
    rw [List.filterMap_cons, List.filter_cons]
    cases hh : hashFn p with
    | none => simpa [hh] using ih
    | some d => simpa [hh] using ih

theorem bucketPairsO_map_snd (hashFn : String → Option String)
    (o : Option (List String)) :
    (bucketPairsO hashFn o).map Prod.snd =
      (bucketHashedO o).filter (fun q => (hashFn q).isSome) := by
  cases o with
  | none => rfl
  | some files =>
    rw [bucketPairsO, bucketHashedO]
    by_cases hlen : files.length < 2
    · rw [if_pos hlen, if_pos hlen]
      rfl
    · rw [if_neg hlen, if_neg hlen]
      exact filterMapPair_map_snd hashFn files

theorem pairsOf_map_snd (hashFn : String → Option String)
    (sm : List (Nat × List String)) :
    ∀ (so : List Nat),
      (pairsOf hashFn sm so).map Prod.snd =
        (hashedOf sm so).filter (fun q => (hashFn q).isSome) := by
  intro so
  induction so with
  | nil => rfl
  | cons s so ih =>
    have hps : pairsOf hashFn sm (s :: so) =
        bucketPairsO hashFn (lookupAL sm s) ++ pairsOf hashFn sm so := by
      simp [pairsOf]
    have hhs : hashedOf sm (s :: so) =
        bucketHashedO (lookupAL sm s) ++ hashedOf sm so := by
      simp [hashedOf]
    rw [hps, hhs, List.map_append, List.filter_append,
      bucketPairsO_map_snd, ih]

theorem pairs_snd_nodup (env : Env) (so : List Nat)
    (hw : ((validRecs env.walk).map Prod.snd).Nodup) (hso : so.Nodup) :
    ((pairsOf env.hashFn (buildSizeMap env.walk) so).map Prod.snd).Nodup := by
  rw [pairsOf_map_snd]
  exact (hashedOf_nodup env.walk so hw hso).filter _

theorem pairs_digest_unique (env : Env) (so : List Nat)
    (hw : ((validRecs env.walk).map Prod.snd).Nodup) (hso : so.Nodup)
    (d d' p : String)
    (h : (d, p) ∈ pairsOf env.hashFn (buildSizeMap env.walk) so)
    (h' : (d', p) ∈ pairsOf env.hashFn (buildSizeMap env.walk) so) :
    d = d' := by
  have hdd : ((d, p) : String × String) = (d', p) :=
    List.inj_on_of_nodup_map (pairs_snd_nodup env so hw hso) h h' rfl
  exact congrArg Prod.fst hdd

theorem group_files_eq (env : Env) (so : List Nat) (d : String)
    (files : List String) (hl : lookupAL (hmOf env so) d = some files) :
    files = ((pairsOf env.hashFn (buildSizeMap env.walk) so).filter
      (fun q => q.1 = d)).map Prod.snd := by
  have h1 := lookupAL_some_valsOf _ _ _ hl
  rw [h1]
  unfold hmOf
  rw [valsOf_buildAL]
  simp [valsOf, lookupAL]

theorem group_files_nodup (env : Env) (so : List Nat)
    (hw : ((validRecs env.walk).map Prod.snd).Nodup) (hso : so.Nodup)
    (d : String) (files : List String)
    (hl : lookupAL (hmOf env so) d = some files) : files.Nodup := by
  rw [group_files_eq env so d files hl]
  exact ((List.filter_sublist _).map Prod.snd).nodup
    (pairs_snd_nodup env so hw hso)

theorem group_eq_of_digest (env : Env) (so : List Nat) (ho ho' : List String)
    (g g' : GroupReport)
    (hg : g ∈ groupsOf env.stat (hmOf env so) ho)
    (hg' : g' ∈ groupsOf env.stat (hmOf env so) ho')
    (hd : g.digest = g'.digest) : g = g' := by
  obtain ⟨d, _, files, hl, hrep⟩ := mem_groupsOf _ _ _ g hg
  obtain ⟨d', _, files', hl', hrep'⟩ := mem_groupsOf _ _ _ g' hg'
  have h1 := (groupRep_some _ _ _ _ hrep).1
  have h1' := (groupRep_some _ _ _ _ hrep').1
  rw [h1, h1'] at hd
  subst hd
  rw [hl] at hl'
  have hff := Option.some.inj hl'
  rw [← hff] at hrep'
  rw [hrep] at hrep'
  exact Option.some.inj hrep'

/-- C2 [amended]: provided no path is scanned twice (the walk's accepted
records carry pairwise-distinct paths, i.e. the scan roots do not overlap)
and sizeMap iteration visits each size key at most once, every reported
digest group is the sorted form of its bucket of at least two files with
the head (position 0) designated keeper and the tail the duplicates, the
keeper is not itself among the duplicates, and the keeper's path is never
passed to os.Remove — in dry-run, confirm or unconditional mode.  Without
the no-rescan hypothesis the property fails: see the counterexample where
a twice-scanned file becomes its own duplicate and its only copy is
removed. -/
theorem C2_keeper_never_deleted (env : Env) (cfg : RunConfig)
    (so : List Nat) (ho : List String)
    (hw : ((validRecs env.walk).map Prod.snd).Nodup) (hso : so.Nodup) :
    ∀ g ∈ (dedupeRun env cfg so ho).groups,
      (∃ files, lookupAL (hmOf env so) g.digest = some files ∧
        2 ≤ files.length ∧
        g.keeper :: g.dups = goSortSlice (lessTotal env.stat) files)
      ∧ g.keeper ∉ g.dups
      ∧ g.keeper ∉ (dedupeRun env cfg so ho).deleted := by
  have hc := dedupeRun_char env cfg so ho
  intro g hg
  rw [hc.1] at hg
  obtain ⟨d, hdho, files, hl, hrep⟩ := mem_groupsOf env.stat _ ho g hg
  obtain ⟨hdig, hsort, hlen⟩ := groupRep_some env.stat d files g hrep
  have hnd_files : files.Nodup := group_files_nodup env so hw hso d files hl
  have hnd_sorted : (g.keeper :: g.dups).Nodup := by
    rw [hsort]
    exact (goSortSlice_perm (lessTotal env.stat) files).symm.nodup hnd_files
  have hkd : g.keeper ∉ g.dups := (List.nodup_cons.mp hnd_sorted).1
  refine ⟨⟨files, by rw [hdig]; exact hl, hlen, hsort⟩, hkd, ?_⟩
  intro hdel
  have hmem := dedupeRun_deleted_sub env cfg so ho g.keeper hdel
  unfold allDups at hmem
  rw [List.mem_flatMap] at hmem
  obtain ⟨g', hg', hkg'⟩ := hmem
  obtain ⟨d', hpair', hdig'⟩ := member_of_group env so ho g' hg' g.keeper
    (List.mem_cons_of_mem _ hkg')
  obtain ⟨d0, hpair0, hdig0⟩ := member_of_group env so ho g hg g.keeper
    (List.mem_cons_self _ _)
  have hdd : d0 = d' :=
    pairs_digest_unique env so hw hso d0 d' g.keeper hpair0 hpair'
  have hgg : g = g' := group_eq_of_digest env so ho ho g g' hg hg'
    (by rw [hdig0, hdig']; exact hdd)
  rw [← hgg] at hkg'
  exact hkd hkg'

/-- The environment of the C2 counterexample: overlapping scan roots visit
the one real file /r/f twice, so the walk stream carries the same path
twice. -/
def envC2 : Env :=
  ⟨[WalkEntry.entry "/r/f" ⟨5, 1, false, false⟩,
    WalkEntry.entry "/r/f" ⟨5, 1, false, false⟩],
   fun _ => some "dd", fun _ => ⟨5, 1, false, false⟩,
   fun _ => "", fun _ => true⟩

/-- C2 counterexample: when overlapping scan roots list the same file
twice, the file pairs with itself into a two-member digest group whose
keeper and sole duplicate are the same path, and in unconditional mode the
run invokes os.Remove on that path — the keeper is deleted, destroying the
only copy.  The two order lists are exactly the key sets of the maps the
run builds, so this is a real iteration order. -/
theorem C2_keeper_deleted_counterexample :
    [5] = keysAL (buildSizeMap envC2.walk)
    ∧ ["dd"] = keysAL (hmOf envC2 [5])
    ∧ ∃ g ∈ (dedupeRun envC2 ⟨false, false⟩ [5] ["dd"]).groups,
      g.keeper ∈ (dedupeRun envC2 ⟨false, false⟩ [5] ["dd"]).deleted := by
  decide

/-- The environment of the C2 witness: two distinct paths of one size and
one content. -/
def envC2b : Env :=
  ⟨[WalkEntry.entry "/a" ⟨5, 1, false, false⟩,
    WalkEntry.entry "/b" ⟨5, 2, false, false⟩],
   fun _ => some "dd",
   fun p => if p = "/a" then ⟨5, 1, false, false⟩ else ⟨5, 2, false, false⟩,
   fun _ => "", fun _ => true⟩

/-- C2 witness: a concrete non-overlapping two-file run satisfies the
hypotheses, and its one group keeps /a and deletes only /b. -/
theorem C2_keeper_never_deleted_witness :
    (((validRecs envC2b.walk).map Prod.snd).Nodup ∧ ([5] : List Nat).Nodup)
    ∧ ∀ g ∈ (dedupeRun envC2b ⟨false, false⟩ [5] ["dd"]).groups,
      (∃ files, lookupAL (hmOf envC2b [5]) g.digest = some files ∧
        2 ≤ files.length ∧
        g.keeper :: g.dups = goSortSlice (lessTotal envC2b.stat) files)
      ∧ g.keeper ∉ g.dups
      ∧ g.keeper ∉ (dedupeRun envC2b ⟨false, false⟩ [5] ["dd"]).deleted :=
  ⟨⟨by decide, by decide⟩,
    C2_keeper_never_deleted envC2b ⟨false, false⟩ [5] ["dd"]
      (by decide) (by decide)⟩

/-! ### Run-to-run determinism of the reports (claim C5) -/

theorem flatMap_single {α β : Type _} [DecidableEq α] (f : α → List β)
    (s0 : α) :
    ∀ (l : List α), l.Nodup → (∀ t ∈ l, t ≠ s0 → f t = []) →
      l.flatMap f = if s0 ∈ l then f s0 else [] := by
  intro l
  induction l with
  | nil => intro _ _; simp
  | cons a l ih =>
    intro hn hz
    rw [List.flatMap_cons]
    by_cases ha : a = s0
    · subst ha
      have hna : a ∉ l := (List.nodup_cons.mp hn).1
      have hl0 : l.flatMap f = [] := by
        rw [List.flatMap_eq_nil_iff]
        intro t ht
        exact hz t (by simp [ht]) (by rintro rfl; exact hna ht)
      rw [hl0]
      simp
    · have hfa : f a = [] := hz a (by simp) ha
      rw [hfa, ih (List.nodup_cons.mp hn).2
        (fun t ht hts => hz t (by simp [ht]) hts)]
      by_cases hs : s0 ∈ l
      · rw [if_pos hs, if_pos (List.mem_cons_of_mem a hs)]
        simp
      · have hnc : s0 ∉ a :: l := by
          intro hc
          rcases List.mem_cons.mp hc with h | h
          · exact ha h.symm
          · exact hs h
        rw [if_neg hs, if_neg hnc]
        simp

theorem flatMap_perm_unique {α β : Type _} [DecidableEq α] (f : α → List β)
    (l1 l2 : List α) (h12 : l1.Perm l2) (hn : l1.Nodup)
    (hu : ∀ s ∈ l1, ∀ t ∈ l1, s ≠ t → f s = [] ∨ f t = []) :
    l1.flatMap f = l2.flatMap f := by
  by_cases hex : ∃ s0 ∈ l1, f s0 ≠ []
  · obtain ⟨s0, hs0, hf0⟩ := hex
    have hz1 : ∀ t ∈ l1, t ≠ s0 → f t = [] := by
      intro t ht hts
      rcases hu s0 hs0 t ht (fun h => hts h.symm) with h | h
      · exact absurd h hf0
      · exact h
    have hz2 : ∀ t ∈ l2, t ≠ s0 → f t = [] := by
      intro t ht hts
      exact hz1 t (h12.symm.subset ht) hts
    rw [flatMap_single f s0 l1 hn hz1,
      flatMap_single f s0 l2 (h12.nodup hn) hz2]
    rw [if_pos hs0, if_pos (h12.subset hs0)]
  · push_neg at hex
    have h1 : l1.flatMap f = [] := by
      rw [List.flatMap_eq_nil_iff]
      intro t ht
      exact hex t ht
    have h2 : l2.flatMap f = [] := by
      rw [List.flatMap_eq_nil_iff]
      intro t ht
      exact hex t (h12.symm.subset ht)
    rw [h1, h2]

theorem mem_map_fst_iff_filter (ps : List (String × String)) (d : String) :
    d ∈ ps.map Prod.fst ↔ ps.filter (fun q => q.1 = d) ≠ [] := by
  constructor
  · intro h hnil
    rw [List.mem_map] at h
    obtain ⟨a, ha, had⟩ := h
    rw [List.filter_eq_nil_iff] at hnil
    exact hnil a ha (by simp [had])
  · intro h
    rcases List.exists_mem_of_ne_nil _ h with ⟨pr, hpr⟩
    rw [List.mem_filter] at hpr
    rw [List.mem_map]
    exact ⟨pr, hpr.1, by simpa using hpr.2⟩

theorem pairsOf_filter_digest (env : Env) (d : String) :
    ∀ (so : List Nat),
      (pairsOf env.hashFn (buildSizeMap env.walk) so).filter
        (fun q => q.1 = d) =
      so.flatMap (fun s =>
        (bucketPairsO env.hashFn
          (lookupAL (buildSizeMap env.walk) s)).filter
          (fun q => q.1 = d)) := by
  intro so
  unfold pairsOf
  induction so with
  | nil => rfl
  | cons s so ih =>
    rw [List.flatMap_cons, List.flatMap_cons, List.filter_append, ih]

theorem hmOf_lookup_eq (env : Env) (so1 so2 : List Nat)
    (h12 : so1.Perm so2) (hn : so1.Nodup)
    (hdig : ∀ s ∈ so1, ∀ t ∈ so1, s ≠ t →
      ∀ pr ∈ bucketPairsO env.hashFn (lookupAL (buildSizeMap env.walk) s),
      ∀ pr' ∈ bucketPairsO env.hashFn (lookupAL (buildSizeMap env.walk) t),
        pr.1 ≠ pr'.1)
    (d : String) :
    lookupAL (hmOf env so1) d = lookupAL (hmOf env so2) d := by
  have hfe : (pairsOf env.hashFn (buildSizeMap env.walk) so1).filter
      (fun q => q.1 = d) =
      (pairsOf env.hashFn (buildSizeMap env.walk) so2).filter
      (fun q => q.1 = d) := by
    rw [pairsOf_filter_digest, pairsOf_filter_digest]
    refine flatMap_perm_unique _ so1 so2 h12 hn ?_
    intro s hs t ht hst
    by_cases hfs : (bucketPairsO env.hashFn
        (lookupAL (buildSizeMap env.walk) s)).filter (fun q => q.1 = d) = []
    · exact Or.inl hfs
    · right
      rw [List.filter_eq_nil_iff]
      intro pr' hpr' hd'
      have hex : ∃ pr ∈ bucketPairsO env.hashFn
          (lookupAL (buildSizeMap env.walk) s), pr.1 = d := by
        rcases List.exists_mem_of_ne_nil _ hfs with ⟨pr, hpr⟩
        rw [List.mem_filter] at hpr
        exact ⟨pr, hpr.1, by simpa using hpr.2⟩
      obtain ⟨pr, hpr, hprd⟩ := hex
      have hne := hdig s hs t ht hst pr hpr pr' hpr'
      rw [hprd] at hne
      have hde : pr'.1 = d := by simpa using hd'
      exact hne hde.symm
  have hmem : d ∈ keysAL (hmOf env so1) ↔ d ∈ keysAL (hmOf env so2) := by
    unfold hmOf
    rw [mem_keysAL_buildAL, mem_keysAL_buildAL]
    have h0 : d ∉ keysAL ([] : List (String × List String)) := by
      simp [keysAL]
    rw [or_iff_right h0, or_iff_right h0]
    rw [mem_map_fst_iff_filter, mem_map_fst_iff_filter, hfe]
  have hvals : valsOf (hmOf env so1) d = valsOf (hmOf env so2) d := by
    unfold hmOf
    rw [valsOf_buildAL, valsOf_buildAL, hfe]
  rw [lookupAL_eq, lookupAL_eq]
  by_cases hd1 : d ∈ keysAL (hmOf env so1)
  · rw [if_pos hd1, if_pos (hmem.mp hd1), hvals]
  · rw [if_neg hd1, if_neg (fun h => hd1 (hmem.mpr h))]

theorem groupsOf_ho_perm (stat : String → FileMeta)
    (hm1 hm2 : List (String × List String)) (ho1 ho2 : List String)
    (hl : ∀ d, lookupAL hm1 d = lookupAL hm2 d) (hp : ho1.Perm ho2) :
    (groupsOf stat hm1 ho1).Perm (groupsOf stat hm2 ho2) := by
  unfold groupsOf
  have he : ho2.filterMap (fun d =>
      match lookupAL hm2 d with
      | none => none
      | some files => groupRep stat d files) =
      ho2.filterMap (fun d =>
      match lookupAL hm1 d with
      | none => none
      | some files => groupRep stat d files) := by
    refine List.filterMap_congr ?_
    intro d _
    rw [hl d]
  rw [he]
  exact hp.filterMap _

/-- C5 [amended]: Go iterates its maps in a deliberately randomised order,
so two runs of the tool see the size map and the hash map in different but
equally valid orders.  Provided equal-digest files share a size (true of a
collision-free content hash) the printed sequence of group reports of two
dry runs over an unchanged tree is the same up to that report order — the
report multiset is identical — and any two groups with the same digest are
the very same report, keeper included.  Literal list equality of the
reports fails across runs: see the counterexample. -/
theorem C5_dry_run_deterministic (env : Env) (so1 so2 : List Nat)
    (ho1 ho2 : List String) (hso : so1.Perm so2) (hn : so1.Nodup)
    (hho : ho1.Perm ho2)
    (hdig : ∀ s ∈ so1, ∀ t ∈ so1, s ≠ t →
      ∀ pr ∈ bucketPairsO env.hashFn (lookupAL (buildSizeMap env.walk) s),
      ∀ pr' ∈ bucketPairsO env.hashFn (lookupAL (buildSizeMap env.walk) t),
        pr.1 ≠ pr'.1) :
    ((dedupeRun env ⟨true, false⟩ so1 ho1).groups).Perm
      ((dedupeRun env ⟨true, false⟩ so2 ho2).groups)
    ∧ ∀ g1 ∈ (dedupeRun env ⟨true, false⟩ so1 ho1).groups,
      ∀ g2 ∈ (dedupeRun env ⟨true, false⟩ so2 ho2).groups,
        g1.digest = g2.digest → g1 = g2 := by
  have hc1 := dedupeRun_char env ⟨true, false⟩ so1 ho1
  have hc2 := dedupeRun_char env ⟨true, false⟩ so2 ho2
  have hlk : ∀ d, lookupAL (hmOf env so1) d = lookupAL (hmOf env so2) d :=
    fun d => hmOf_lookup_eq env so1 so2 hso hn hdig d
  constructor
  · rw [hc1.1, hc2.1]
    exact groupsOf_ho_perm env.stat _ _ ho1 ho2 hlk hho
  · intro g1 hg1 g2 hg2 hd
    rw [hc1.1] at hg1
    rw [hc2.1] at hg2
    have he : groupsOf env.stat (hmOf env so2) ho2 =
        groupsOf env.stat (hmOf env so1) ho2 := by
      unfold groupsOf
      refine List.filterMap_congr ?_
      intro d _
      rw [hlk d]
    rw [he] at hg2
    exact group_eq_of_digest env so1 ho1 ho2 g1 g2 hg1 hg2 hd

/-- The environment of the C5 counterexample and witness: two digest
groups of two files each. -/
def envC5 : Env :=
  ⟨[WalkEntry.entry "/a1" ⟨1, 1, false, false⟩,
    WalkEntry.entry "/a2" ⟨1, 2, false, false⟩,
    WalkEntry.entry "/b1" ⟨2, 3, false, false⟩,
    WalkEntry.entry "/b2" ⟨2, 4, false, false⟩],
   fun p => if p = "/a1" ∨ p = "/a2" then some "dA" else some "dB",
   fun p =>
     if p = "/a1" then ⟨1, 1, false, false⟩
     else if p = "/a2" then ⟨1, 2, false, false⟩
     else if p = "/b1" then ⟨2, 3, false, false⟩
     else ⟨2, 4, false, false⟩,
   fun _ => "", fun _ => true⟩

/-- C5 counterexample: two dry runs over the same unchanged tree whose
hash-map iteration orders differ — both orders are the key set, as Go's
randomised map iteration can produce either — print the same two group
reports in different positions, so the report sequences are not
identical. -/
theorem C5_report_order_counterexample :
    List.Perm ["dA", "dB"] ["dB", "dA"]
    ∧ ["dA", "dB"] = keysAL (hmOf envC5 [1, 2])
    ∧ (dedupeRun envC5 ⟨true, false⟩ [1, 2] ["dA", "dB"]).groups ≠
      (dedupeRun envC5 ⟨true, false⟩ [1, 2] ["dB", "dA"]).groups := by
  decide

/-- C5 witness: the concrete two-group tree satisfies every hypothesis,
and two runs with both maps iterated in opposite orders report the same
group multiset with identical per-digest reports. -/
theorem C5_dry_run_deterministic_witness :
    (List.Perm [1, 2] [2, 1] ∧ ([1, 2] : List Nat).Nodup
      ∧ List.Perm ["dA", "dB"] ["dB", "dA"]
      ∧ (∀ s ∈ [1, 2], ∀ t ∈ [1, 2], s ≠ t →
        ∀ pr ∈ bucketPairsO envC5.hashFn
          (lookupAL (buildSizeMap envC5.walk) s),
        ∀ pr' ∈ bucketPairsO envC5.hashFn
          (lookupAL (buildSizeMap envC5.walk) t),
          pr.1 ≠ pr'.1))
    ∧ (((dedupeRun envC5 ⟨true, false⟩ [1, 2] ["dA", "dB"]).groups).Perm
        ((dedupeRun envC5 ⟨true, false⟩ [2, 1] ["dB", "dA"]).groups)
      ∧ ∀ g1 ∈ (dedupeRun envC5 ⟨true, false⟩ [1, 2] ["dA", "dB"]).groups,
        ∀ g2 ∈ (dedupeRun envC5 ⟨true, false⟩ [2, 1] ["dB", "dA"]).groups,
          g1.digest = g2.digest → g1 = g2) :=
  ⟨⟨by decide, by decide, by decide, by decide⟩,
    C5_dry_run_deterministic envC5 [1, 2] [2, 1] ["dA", "dB"] ["dB", "dA"]
      (by decide) (by decide) (by decide) (by decide)⟩
